import Mathlib

/-!
# CasADi MX nodes: non-recursive teardown and the SetNonzeros family

A shallow embedding of `MXNode::~MXNode`, `MXNode::getSetNonzeros` and
`MXNode::getAddNonzeros` (symbolic/mx/mx_node.cpp) and of the `SetNonzeros`
node classes (casadi/core/mx/setnonzeros.hpp).

Memory is a map from addresses to nodes.  A handle (`MX`) is either null or
the address of the node it owns a share of.  Every node carries the owner
count kept by its handles.
-/

namespace CasADi

/-! ## Memory model -/

/-- One `MXNode`: the owner count of the shared object and the dependency
handles `dep_` (a null handle is `none`). -/
structure MXNode where
  count : Int
  dep_ : List (Option Nat)

/-- The memory together with a record of what the teardown did: the nodes whose
destructor ran (latest first), the nodes pushed on a deletion stack (latest
first), the largest size a deletion stack reached and the deepest nesting of
destructor calls.  The four record fields are never read by the code. -/
structure Mem where
  node : Nat → MXNode
  destroyed : List Nat
  pushed : List Nat
  maxStack : Nat
  maxNest : Nat

/-- A memory in which no teardown has happened yet. -/
def Mem.init (node : Nat → MXNode) : Mem := ⟨node, [], [], 0, 0⟩

/-- Value of `getCount()` through a handle to node `c`. -/
def getCount (m : Mem) (c : Nat) : Int := (m.node c).count

/-- The handle `dep_[i]` of node `t`. -/
def dep (m : Mem) (t i : Nat) : Option Nat := (m.node t).dep_.getD i none

/-- Value of `dep_.size()` for node `t`. -/
def ndep (m : Mem) (t : Nat) : Nat := (m.node t).dep_.length

/-- Add `d` to the owner count of node `c`. -/
def addCount (m : Mem) (c : Nat) (d : Int) : Mem :=
  { m with node := Function.update m.node c ⟨(m.node c).count + d, (m.node c).dep_⟩ }

/-- Overwrite the handle `dep_[i]` of node `t` by a null handle. -/
def setNull (m : Mem) (t i : Nat) : Mem :=
  { m with node := Function.update m.node t ⟨(m.node t).count, (m.node t).dep_.set i none⟩ }

/-- Modelled from the spec: the handle class (SharedObject) is not part of the
sources.  Dropping an owning handle of node `c` lowers the owner count, and the
node is deleted (`del`) when the count reaches zero: "the Node is destroyed
exactly when its last owning handle is dropped or reassigned". -/
def release (del : Mem → Nat → Option Mem) (m : Mem) (c : Nat) : Option Mem :=
  let m1 := addCount m c (-1)
  if getCount m1 c = 0 then del m1 c else some m1

/-- The assignment `*cc = MX()` on the handle `dep_[i]` of node `t`: the share
the handle held is released, then the handle is null. -/
def assignNull (del : Mem → Nat → Option Mem) (m : Mem) (t i : Nat) : Option Mem :=
  match dep m t i with
  | none => some m
  | some c =>
    match release del m c with
    | none => none
    | some m1 => some (setNull m1 t i)

/-- The call `deletion_stack.push(*cc)` with `*cc` a handle to `c`: the copy held
by the stack is one more owner.  `stack` is the stack before the push. -/
def push (m : Mem) (c : Nat) (stack : List Nat) : Mem :=
  { addCount m c 1 with
    pushed := c :: m.pushed
    maxStack := max m.maxStack (stack.length + 1) }

/-- Body of both `for` loops of the destructor for the handle `dep_[i]` of node
`t` (lines 55-63 for the node itself, lines 84-97 for the top of the stack):
a null handle is skipped; a child with owner count one is pushed on the
deletion stack and the handle is cleared; any other child is not followed, the
handle is cleared.  The second component is the pushed child, if any. -/
def visit (del : Mem → Nat → Option Mem) (m : Mem) (stack : List Nat) (t i : Nat) :
    Option (Mem × Option Nat) :=
  match dep m t i with
  | none => some (m, none)
  | some c =>
    if getCount m c = 1 then
      match assignNull del (push m c stack) t i with
      | none => none
      | some m2 => some (m2, some c)
    else
      match assignNull del m t i with
      | none => none
      | some m1 => some (m1, none)

/-- The `for` loop over `t->dep_` inside the `while` loop (lines 81-98), with `n`
handles left from index `i`.  It stops at the first child it pushes (`break`);
the flag is `found_dep`. -/
def scanTop (del : Mem → Nat → Option Mem) (t : Nat) :
    Nat → Nat → Mem → List Nat → Option (Mem × List Nat × Bool)
  | 0, _, m, stack => some (m, stack, false)
  | n + 1, i, m, stack =>
    match visit del m stack t i with
    | none => none
    | some (m1, some c) => some (m1, c :: stack, true)
    | some (m1, none) => scanTop del t n (i + 1) m1 stack

/-- One iteration of the `while` loop (lines 75-103) with `t` on top of `rest`. -/
def drainIter (del : Mem → Nat → Option Mem) (m : Mem) (t : Nat) (rest : List Nat) :
    Option (Mem × List Nat) :=
  -- MX t = deletion_stack.top()
  let m1 := addCount m t 1
  match scanTop del t (ndep m1 t) 0 m1 (t :: rest) with
  | none => none
  | some (m2, stack2, found) =>
    if found then
      -- the local handle t goes out of scope
      match release del m2 t with
      | none => none
      | some m3 => some (m3, stack2)
    else
      -- deletion_stack.pop(), then the local handle t goes out of scope
      match release del m2 t with
      | none => none
      | some m3 =>
        match release del m3 t with
        | none => none
        | some m4 => some (m4, stack2.tail)

/-- The `while(!deletion_stack.empty())` loop (lines 72-104), bounded by `fuel`
iterations. -/
def drainWith (del : Mem → Nat → Option Mem) : Nat → Mem → List Nat → Option Mem
  | _, m, [] => some m
  | 0, _, _ :: _ => none
  | fuel + 1, m, t :: rest =>
    match drainIter del m t rest with
    | none => none
    | some (m1, stack1) => drainWith del fuel m1 stack1

/-- The `for` loop over the node's own `dep_` (lines 53-106), with `n` handles
left from index `i`.  A pushed child starts a fresh deletion stack that is
drained before the next handle is looked at. -/
def scanOwn (del : Mem → Nat → Option Mem) (drain : Mem → List Nat → Option Mem)
    (self : Nat) : Nat → Nat → Mem → Option Mem
  | 0, _, m => some m
  | n + 1, i, m =>
    match visit del m [] self i with
    | none => none
    | some (m1, none) => scanOwn del drain self n (i + 1) m1
    | some (m1, some c) =>
      match drain m1 [c] with
      | none => none
      | some m2 => scanOwn del drain self n (i + 1) m2

/-- Entry of the destructor of node `self` at nesting depth `depth`. -/
def enter (m : Mem) (self depth : Nat) : Mem :=
  { m with destroyed := self :: m.destroyed, maxNest := max m.maxNest depth }

/-- The destructor `MXNode::~MXNode` run on node `self`.  `depth` is the number
of destructor calls it is nested in.  `fuel` bounds the iterations of each
`while` loop and the nesting of destructor calls; a deletion triggered inside
is a destructor call one level deeper.  The body clears every handle of
`dep_` that it examines, so the destruction of the member `dep_` that follows
the body finds null handles only and is not modelled. -/
def dtor : Nat → Nat → Mem → Nat → Option Mem
  | 0, _, _, _ => none
  | fuel + 1, depth, m, self =>
    scanOwn (dtor fuel (depth + 1)) (drainWith (dtor fuel (depth + 1)) fuel) self
      (ndep m self) 0 (enter m self depth)

/-- A chain below a root: node `0` is the root being destroyed, node `k`
(`1 ≤ k < N`) depends only on node `k + 1`, node `N` has no dependency, and
every node of the chain has the single owner above it. -/
def chain (N : Nat) : Nat → MXNode := fun k =>
  if k = 0 then ⟨0, if N = 0 then [] else [some 1]⟩
  else if k < N then ⟨1, [some (k + 1)]⟩
  else if k = N then ⟨1, []⟩
  else ⟨0, []⟩

/-- Memory after a handle to `c` at `dep_[i]` of `t` was cleared without following
the child. -/
def dropHandle (m : Mem) (t i c : Nat) : Mem := setNull (addCount m c (-1)) t i

/-- Memory after the child `c` behind `dep_[i]` of `t` was moved to the stack. -/
def moveToStack (m : Mem) (stack : List Nat) (t i c : Nat) : Mem :=
  setNull (addCount (push m c stack) c (-1)) t i

/-- Sum of `f 0, ..., f (n-1)`. -/
def sumTo (f : Nat → Nat) : Nat → Nat
  | 0 => 0
  | n + 1 => sumTo f n + f n

/-- Number of handles in `dep_` of node `j` that point to node `id`. -/
def refsIn (nd : Nat → MXNode) (j id : Nat) : Nat := (nd j).dep_.count (some id)

/-- Number of handles to node `id` held in the dependency lists of the nodes
`0, ..., n-1`. -/
def handles (nd : Nat → MXNode) (n id : Nat) : Nat := sumTo (fun j => refsIn nd j id) n

/-- Number of non-null handles in `dep_` of node `j`. -/
def liveIn (nd : Nat → MXNode) (j : Nat) : Nat := (nd j).dep_.countP Option.isSome

/-- Number of non-null dependency handles held by the nodes `0, ..., n-1`. -/
def totalLive (nd : Nat → MXNode) (n : Nat) : Nat := sumTo (liveIn nd) n

/-- Number of handles to node `id` held by the nodes listed in `owners`. -/
def handlesFrom (nd : Nat → MXNode) (owners : List Nat) (id : Nat) : Nat :=
  (owners.map (fun j => refsIn nd j id)).sum

/-- The dependency lists of `m2` are those of `m` with `dep_[i]` of `t` nulled. -/
def ClearedAt (m m2 : Mem) (t i : Nat) : Prop :=
  ∀ j, (m2.node j).dep_ = if j = t then (m.node j).dep_.set i none else (m.node j).dep_

/-- A finite node graph on the addresses `0, ..., n-1` in which `root` is the
node whose last owner has just gone: dependency handles stay inside the graph,
the root has owner count zero, every other node is owned, and the owner count
of a node accounts for every dependency handle that points to it (the surplus
are owners outside the graph). -/
structure Consistent (n : Nat) (nd : Nat → MXNode) (root : Nat) : Prop where
  root_lt : root < n
  closed : ∀ j, j < n → ∀ h ∈ (nd j).dep_, ∀ c ∈ h, c < n
  root_count : (nd root).count = 0
  owned : ∀ id, id < n → id ≠ root → 0 < (nd id).count
  counts : ∀ id, id < n → (handles nd n id : Int) ≤ (nd id).count

/-- Node `id` is reached from `root` by following dependency handles. -/
inductive Reach (nd : Nat → MXNode) (root : Nat) : Nat → Prop
  | refl : Reach nd root root
  | step {j c : Nat} : Reach nd root j → some c ∈ (nd j).dep_ → Reach nd root c

/-- A level function: the root has level zero and a dependency is at most one
level below the node that holds it.  The length of a shortest path of handles
from the root is the largest such function. -/
def Levelled (nd : Nat → MXNode) (root : Nat) (lvl : Nat → Nat) : Prop :=
  lvl root = 0 ∧ ∀ j c, some c ∈ (nd j).dep_ → lvl c ≤ lvl j + 1

/-- Every node on the stack sits at least as high in the stack as its level. -/
def StackLevels (lvl : Nat → Nat) : List Nat → Prop
  | [] => True
  | c :: rest => lvl c ≤ rest.length + 1 ∧ StackLevels lvl rest

/-- The invariant of the teardown started on `root` in the memory `nd0`, for the
memory `m`, the deletion stack `stack` and the local handles `loc` (the copy
`t` of the top of the stack while an iteration runs). -/
structure Inv (n : Nat) (nd0 : Nat → MXNode) (root : Nat) (m : Mem)
    (stack loc : List Nat) : Prop where
  root_lt : root < n
  ext_nonneg : ∀ id, id < n → (handles nd0 n id : Int) ≤ (nd0 id).count
  closed : ∀ j, j < n → ∀ c, some c ∈ (m.node j).dep_ → c < n
  counts : ∀ id, id < n → getCount m id + handles nd0 n id =
    (nd0 id).count + handles m.node n id + stack.count id + loc.count id
  stack_lt : ∀ id ∈ stack, id < n
  stack_nodup : stack.Nodup
  stack_count : ∀ id ∈ stack, getCount m id = 1 + loc.count id
  root_destroyed : root ∈ m.destroyed
  destroyed_iff : ∀ id, id < n → (id ∈ m.destroyed ↔ getCount m id = 0)
  destroyed_lt : ∀ id ∈ m.destroyed, id < n
  destroyed_nodup : m.destroyed.Nodup
  destroyed_null : ∀ id ∈ m.destroyed, id ≠ root → ∀ i, dep m id i = none
  frame : ∀ j, j < n → j ∉ m.destroyed → j ∉ stack → (m.node j).dep_ = (nd0 j).dep_
  sub_init : ∀ j c, some c ∈ (m.node j).dep_ → some c ∈ (nd0 j).dep_
  pushed_nodup : m.pushed.Nodup
  pushed_sub : ∀ id ∈ m.pushed, id ∈ stack ∨ id ∈ m.destroyed
  stack_pushed : ∀ id ∈ stack, id ∈ m.pushed
  maxStack_le : m.maxStack ≤ m.pushed.length
  nest : m.maxNest ≤ 1
  destroyed_sub : ∀ id ∈ m.destroyed, id = root ∨ id ∈ m.pushed
  reach : ∀ id ∈ m.pushed, Reach nd0 root id
  root_not_pushed : root ∉ m.pushed
  level_stack : ∀ lvl, Levelled nd0 root lvl → StackLevels lvl stack
  level_pushed : ∀ lvl, Levelled nd0 root lvl → ∀ c ∈ m.pushed, lvl c ≤ m.maxStack

/-- Memory after the top `t` was popped and its destructor ran one level down. -/
def popped (m : Mem) (t : Nat) : Mem := enter (addCount (addCount m t (-1)) t (-1)) t 1

/-- The memory `m2` comes later than `m` in a teardown: null handles stay null,
no dependency list changes length, and no handle comes back to life. -/
structure Later (n : Nat) (m m2 : Mem) : Prop where
  null : ∀ j k, dep m j k = none → dep m2 j k = none
  size : ∀ j, ndep m2 j = ndep m j
  live : totalLive m2.node n ≤ totalLive m.node n

/-- The deletion `del` is a destructor call at nesting depth one that returns at
once on a node whose handles are all null. -/
def TrivialDel (del : Mem → Nat → Option Mem) : Prop :=
  ∀ (m : Mem) (x : Nat), (∀ i, dep m x i = none) → del m x = some (enter m x 1)

/-- A root with three dependencies: node 1 and node 2 are owned by the root
alone and share node 3 (node 2 holds it twice); node 4 is held by the root, by
node 2 and by an owner outside the graph, and owns node 5. -/
def sharedDag : Nat → MXNode := fun k =>
  match k with
  | 0 => ⟨0, [some 1, some 2, some 4]⟩
  | 1 => ⟨1, [some 3]⟩
  | 2 => ⟨1, [some 3, some 3, some 4]⟩
  | 3 => ⟨3, []⟩
  | 4 => ⟨3, [some 5]⟩
  | 5 => ⟨1, []⟩
  | _ => ⟨0, []⟩

/-- Modelled from the spec: the loop body of `SetNonzerosVector<Add>::evalGen`
(setnonzeros_impl.hpp, not part of the sources) for one selector entry.  The
entry `p` of the result receives the source value `v`, or has `v` accumulated
into it when `add` is set (section 4.3).  The spec gives no meaning to a
position outside the result; such an entry is left without effect. -/
def assignNz {T : Type} [Add T] (add : Bool) (z : List T) (p : Int) (v : T) : List T :=
  if p < 0 then z
  else
    match z[p.toNat]? with
    | none => z
    | some old => z.set p.toNat (if add then old + v else v)

/-- Modelled from the spec: `SetNonzerosVector<Add>::evalGen` is only declared in
setnonzeros.hpp (lines 97-99), its body is in setnonzeros_impl.hpp, which is not
part of the sources.  Section 4.3: the result has the sparsity of the base `y`
and starts as a copy of it; "evaluation iterates [the position list] directly",
the `k`-th position named by `nz` taking the `k`-th entry of the source `x`. -/
def SetNonzerosVector.evalGen {T : Type} [Add T] (add : Bool) (nz : List Int) (y x : List T) :
    List T :=
  match nz, x with
  | p :: nz, v :: x => SetNonzerosVector.evalGen add nz (assignNz add y p v) x
  | _, _ => y

/-- Modelled from the spec: class `Slice` is not part of the sources.  Section 3:
"`(start, stop, step)` triple - a position set describable by one arithmetic
progression". -/
structure Slice where
  start_ : Int
  stop_ : Int
  step_ : Int
  deriving DecidableEq

/-- The arithmetic progression of `n` positions from `start` with step `step`. -/
def progression (start step : Int) (n : Nat) : List Int :=
  (List.range n).map (fun (k : Nat) => start + step * (k : Int))

/-- Modelled from the spec: the number of positions of the progression that runs
from `start_` in steps of `step_` and ends before `stop_`. -/
def Slice.size (s : Slice) : Nat :=
  if 0 < s.step_ then ((s.stop_ - s.start_ + s.step_ - 1) / s.step_).toNat
  else if s.step_ < 0 then ((s.start_ - s.stop_ - s.step_ - 1) / (-s.step_)).toNat
  else 0

/-- Modelled from the spec: `Slice::getAll(len)` is not part of the sources.
Section 4.1, `expand()`: "materializes the selector back to positions".  `len`
is the extent of what is sliced; the bounds of a slice built from a position
list are explicit and need no extent to be resolved. -/
def Slice.getAll (s : Slice) (_len : Int) : List Int :=
  progression s.start_ s.step_ s.size

/-- Modelled from the spec: `Slice::getAll(outer, len)` is not part of the
sources.  Section 3: "an outer slice of inner slices": for every position of
the outer slice, the inner slice shifted by it. -/
def Slice.getAll2 (inner outer : Slice) (len : Int) : List Int :=
  (outer.getAll len).flatMap
    (fun i => (Slice.mk (i + inner.start_) (i + inner.stop_) inner.step_).getAll len)

/-- Modelled from the spec: `Slice::isSlice` is not part of the sources.
Section 4.1: "Slice if the list is one arithmetic progression"; a progression
of two or more equal positions is excluded, since "no representation may be
chosen that cannot reproduce the exact original ordered sequence". -/
def Slice.isSlice (v : List Int) : Bool :=
  match v with
  | [] => true
  | [_] => true
  | a :: b :: _ => decide (b ≠ a) && decide (v = progression a (b - a) v.length)

/-- Modelled from the spec: the constructor `Slice(nz)` is not part of the
sources: the triple of the progression `nz`. -/
def Slice.ofList (v : List Int) : Slice :=
  match v with
  | [] => ⟨0, 0, 1⟩
  | [a] => ⟨a, a + 1, 1⟩
  | a :: b :: _ => ⟨a, a + (b - a) * v.length, b - a⟩

/-- Number of leading entries of `v` that continue the progression expected to be
at `next` with step `step`. -/
def leadRun (next step : Int) : List Int → Nat
  | [] => 0
  | a :: v => if a = next then leadRun (next + step) step v + 1 else 0

/-- Modelled from the spec: the constructor `Slice(nz, outer)` is not part of the
sources.  The inner slice is the leading run of `nz` that is one progression,
the outer slice steps from its first position to the first position after the
run, as often as runs of that length fit in `nz`.  The result is the inner and
the outer slice. -/
def Slice.ofList2 (v : List Int) : Slice × Slice :=
  match v with
  | a :: b :: _ =>
    let cnt := leadRun a (b - a) v
    let outerStep := v.getD cnt a - a
    (⟨a, a + (b - a) * cnt, b - a⟩, ⟨0, outerStep * ((v.length / cnt : Nat) : Int), outerStep⟩)
  | _ => (Slice.ofList v, ⟨0, 1, 1⟩)

/-- Reads the progression `next, next + step, ...` of `n` positions off the
front of a list: the rest of the list, or `none` when the list does not start
with that progression. -/
def dropRun (next step : Int) : Nat → List Int → Option (List Int)
  | 0, v => some v
  | _ + 1, [] => none
  | n + 1, a :: v => if a = next then dropRun (next + step) step n v else none

/-- Reads `no` runs of `ni` positions each off the front of a list, the first
starting at `start`, each next one `outerStep` further: the rest of the list, or
`none` when the list does not start with these runs. -/
def dropBlocks (start outerStep step : Int) (ni : Nat) : Nat → List Int → Option (List Int)
  | 0, v => some v
  | no + 1, v =>
    match dropRun start step ni v with
    | none => none
    | some rest => dropBlocks (start + outerStep) outerStep step ni no rest

/-- The nested two-level progression of `no` runs of `ni` positions: run `b`
starts at `a + so * b` and has step `d`. -/
def twoLevel (a d : Int) (ni : Nat) (so : Int) (no : Nat) : List Int :=
  (List.range no).flatMap (fun (b : Nat) => progression (a + so * (b : Int)) d ni)

/-- Modelled from the spec: `Slice::isSlice2` is not part of the sources.
Section 4.1: "DoubleSlice if it is a nested two-level progression", decided by
"a cheap structural test": the leading run of the list gives the inner step and
the length of a run, the position after it gives the outer step, and the list
must then read, run after run, as as many runs of that length as fit in it,
with nothing left over.  Runs of equal positions and an outer step of zero are
excluded, since no slice enumerates them. -/
def Slice.isSlice2 (v : List Int) : Bool :=
  match v with
  | a :: b :: _ =>
    decide (b ≠ a) && decide (v.getD (leadRun a (b - a) v) a ≠ a) &&
      decide (dropBlocks a (v.getD (leadRun a (b - a) v) a - a) (b - a) (leadRun a (b - a) v)
        (v.length / leadRun a (b - a) v) v = some [])
  | _ => false

/-- An expression as the factory functions see it: one of the three `SetNonzeros`
node classes of setnonzeros.hpp, with the template argument `Add`, the
dependencies `y` (first) and `x` (second) and the selector the class stores, or
any other node, of which only the number of nonzeros is of interest.  The
constructor of the Vector form is not part of the sources; by section 4.3 it
has "`nz` stored as an explicit position list". -/
inductive Expr where
  | other (id nnz : Nat)
  | SetNonzerosVector (Add : Bool) (y x : Expr) (nz_ : List Int)
  | SetNonzerosSlice (Add : Bool) (y x : Expr) (s_ : Slice)
  | SetNonzerosSlice2 (Add : Bool) (y x : Expr) (inner_ outer_ : Slice)

/-- The methods `getAll()` of `SetNonzerosVector` (line 95), `SetNonzerosSlice`
(line 146) and `SetNonzerosSlice2` (line 204). -/
def Expr.getAll : Expr → List Int
  | .SetNonzerosVector _ _ _ nz_ => nz_
  | .SetNonzerosSlice _ _ _ s_ => s_.getAll s_.stop_
  | .SetNonzerosSlice2 _ _ _ inner_ outer_ => inner_.getAll2 outer_ outer_.stop_
  | .other _ _ => []

/-- What the factory functions call and the sources do not contain.  `ctor` is
what the constructors outside the sources may reject: the base class
constructor `SetNonzeros<Add>(y, x)`, which sees the two operands only
(selector `none`), and for the Vector form the constructor
`SetNonzerosVector<Add>(y, x, nz)`, which sees the position list as well.
`simplify` is the external simplifier. -/
structure External where
  ctor : Bool → Expr → Expr → Option (List Int) → Except String Unit
  simplify : Expr → Expr

/-- The function `MXNode::getSetNonzeros` (mx_node.cpp lines 333-350), called on
the source node `self`. -/
def getSetNonzeros (E : External) (self y : Expr) (nz : List Int) : Except String Expr :=
  if nz.length = 0 then
    .ok y
  else
    (if Slice.isSlice nz then
      (E.ctor false y self none).map
        (fun _ => Expr.SetNonzerosSlice false y self (Slice.ofList nz))
    else if Slice.isSlice2 nz then
      (E.ctor false y self none).map
        (fun _ => Expr.SetNonzerosSlice2 false y self (Slice.ofList2 nz).1 (Slice.ofList2 nz).2)
    else
      (E.ctor false y self (some nz)).map
        (fun _ => Expr.SetNonzerosVector false y self nz)).map E.simplify

/-- The function `MXNode::getAddNonzeros` (mx_node.cpp lines 353-370), called on
the source node `self`. -/
def getAddNonzeros (E : External) (self y : Expr) (nz : List Int) : Except String Expr :=
  if nz.length = 0 then
    .ok y
  else
    (if Slice.isSlice nz then
      (E.ctor true y self none).map
        (fun _ => Expr.SetNonzerosSlice true y self (Slice.ofList nz))
    else if Slice.isSlice2 nz then
      (E.ctor true y self none).map
        (fun _ => Expr.SetNonzerosSlice2 true y self (Slice.ofList2 nz).1 (Slice.ofList2 nz).2)
    else
      (E.ctor true y self (some nz)).map
        (fun _ => Expr.SetNonzerosVector true y self nz)).map E.simplify

/-- The node the factory functions build for the non-empty position list `nz`,
before simplification. -/
def built (Add : Bool) (self y : Expr) (nz : List Int) : Expr :=
  if Slice.isSlice nz then Expr.SetNonzerosSlice Add y self (Slice.ofList nz)
  else if Slice.isSlice2 nz then
    Expr.SetNonzerosSlice2 Add y self (Slice.ofList2 nz).1 (Slice.ofList2 nz).2
  else Expr.SetNonzerosVector Add y self nz

/-- What the constructors see of the position list `nz`: nothing on the Slice
and double-slice paths, the list itself on the Vector path. -/
def seen (nz : List Int) : Option (List Int) :=
  if Slice.isSlice nz then none else if Slice.isSlice2 nz then none else some nz

/-- External parts that reject nothing and simplify nothing. -/
def External.plain : External := ⟨fun _ _ _ _ => .ok (), fun e => e⟩

/-- One piece of what is written to `stream`: a text that `print` writes itself,
or the text that the call `printPart(stream, part)` of node `node` writes.  The
characters on the stream are `Piece.chars`; where a piece comes from is a
record that the code does not keep. -/
inductive Piece where
  | text (s : String)
  | part (node part : Nat) (s : String)
  deriving DecidableEq

/-- The characters of a piece. -/
def Piece.chars : Piece → String
  | .text s => s
  | .part _ _ s => s

/-- What `print` threads through its calls: the pieces written to `stream`, in
order; the budget `remaining_calls`, which is passed by reference; whether an
exception is in flight; and a record of the nodes expanded (latest first),
which the code never reads. -/
structure Printer where
  stream : List Piece
  remaining_calls : Int
  thrown : Bool
  expanded : List Nat

/-- The characters on the stream. -/
def Printer.chars (p : Printer) : List String := p.stream.map Piece.chars

/-- The statement `stream << s`. -/
def Printer.write (p : Printer) (s : String) : Printer :=
  { p with stream := p.stream ++ [Piece.text s] }

/-- The call `printPart(stream, part)` of the virtual `printPart` on node `node`:
`r` is the text it writes, or the exception it throws. -/
def Printer.part (p : Printer) (node part : Nat) (r : Except String String) : Printer :=
  match r with
  | .ok s => { p with stream := p.stream ++ [Piece.part node part s] }
  | .error _ => { p with thrown := true }

/-- The function `MXNode::printPart` of the base class (mx_node.cpp lines
222-227): three assertions, then a comma. -/
def MXNode.printPart (m : Mem) (self part : Nat) : Except String String :=
  if ¬ 1 < ndep m self then .error "ndep()>1"
  else if ¬ 0 < part then .error "part>0"
  else if ¬ part < ndep m self then .error "part<ndep()"
  else .ok ","

/-- The `for` loop of `MXNode::print` (lines 209-216) for node `self`, with `k`
dependencies left from index `i`.  `sub` is the call `dep(i)->print(stream,
remaining_calls)`, `printPart` the virtual `printPart` of each node.  An
exception ends the loop. -/
def printDeps (sub : Printer → Nat → Option Printer)
    (printPart : Nat → Nat → Except String String) (m : Mem) (self : Nat) :
    Nat → Nat → Printer → Option Printer
  | 0, _, p => some p
  | k + 1, i, p =>
    match (match dep m self i with
      | none => some (p.write "MX()")
      | some c => sub p c) with
    | none => none
    | some p1 =>
      if p1.thrown then some p1
      else if (p1.part self (i + 1) (printPart self (i + 1))).thrown then
        some (p1.part self (i + 1) (printPart self (i + 1)))
      else printDeps sub printPart m self k (i + 1)
        (p1.part self (i + 1) (printPart self (i + 1)))

/-- The function `MXNode::print(stream, remaining_calls)` (mx_node.cpp lines
205-220) called on node `self`.  `fuel` bounds the depth of the recursion; the
call on a dependency is this same function. -/
def MXNode.print (printPart : Nat → Nat → Except String String) (m : Mem) :
    Nat → Printer → Nat → Option Printer
  | 0, p, _ => if 0 < p.remaining_calls then none else some (p.write "...")
  | fuel + 1, p, self =>
    if 0 < p.remaining_calls then
      if (Printer.part ⟨p.stream, p.remaining_calls - 1, p.thrown, self :: p.expanded⟩
          self 0 (printPart self 0)).thrown then
        some (Printer.part ⟨p.stream, p.remaining_calls - 1, p.thrown, self :: p.expanded⟩
          self 0 (printPart self 0))
      else
        printDeps (MXNode.print printPart m fuel) printPart m self (ndep m self) 0
          (Printer.part ⟨p.stream, p.remaining_calls - 1, p.thrown, self :: p.expanded⟩
            self 0 (printPart self 0))
    else some (p.write "...")

/-- The node of a piece that is part 0 of a node: the opening of an expansion. -/
def Piece.head : Piece → Option Nat
  | .part e 0 _ => some e
  | _ => none

/-- The nodes whose part 0 is in the output, in the order of the output. -/
def heads (out : List Piece) : List Nat := out.filterMap Piece.head

/-- Whether a piece was written by a `printPart`. -/
def Piece.isPart : Piece → Bool
  | .part _ _ _ => true
  | .text _ => false

/-- How often `print` itself wrote the text `s`. -/
def countText (s : String) (out : List Piece) : Nat := out.count (Piece.text s)

/-- Sum of `f` over the entries of a list of nodes. -/
def total (f : Nat → Nat) (l : List Nat) : Nat := (l.map f).sum

/-- Number of null dependency handles of node `j`. -/
def nullIn (nd : Nat → MXNode) (j : Nat) : Nat := (nd j).dep_.countP Option.isNone

/-- What a stretch of a print did, from state `p` to state `p2`: it wrote `out`
and expanded the nodes `l` (latest first).  `own` are the nodes expanded
before, whose parts the stretch may still write.  `cp`, `cn` and `cd` are the
parts, null handles and non-null handles that the stretch deals with for the
nodes of `own`. -/
structure Trace (printPart : Nat → Nat → Except String String) (m : Mem) (own : List Nat)
    (cp cn cd : Nat) (p p2 : Printer) (out : List Piece) (l : List Nat) : Prop where
  stream : p2.stream = p.stream ++ out
  expanded : p2.expanded = l ++ p.expanded
  budget : p2.remaining_calls + l.length = p.remaining_calls
  nonneg : 0 ≤ p.remaining_calls → 0 ≤ p2.remaining_calls
  origin : ∀ e k s, Piece.part e k s ∈ out → (e ∈ l ∨ e ∈ own) ∧ printPart e k = .ok s
  heads_prefix : heads out <+: l.reverse
  cause : p2.thrown = true →
    p.thrown = true ∨ ∃ e k err, (e ∈ l ∨ e ∈ own) ∧ printPart e k = .error err
  complete : p2.thrown = false →
    p.thrown = false ∧ heads out = l.reverse ∧
    out.countP Piece.isPart = cp + total (fun e => ndep m e + 1) l ∧
    countText "MX()" out = cn + total (nullIn m.node) l ∧
    countText "..." out + l.length = cd + total (liveIn m.node) l

/-- A node whose first dependency handle is null and whose second dependency
is node 1, which has no dependency. -/
def withNull : Nat → MXNode := fun k =>
  match k with
  | 0 => ⟨0, [none, some 1]⟩
  | _ => ⟨1, []⟩

/-- A node with two dependency handles, both null. -/
def nullPair : Nat → MXNode := fun _ => ⟨1, [none, none]⟩

/-- A `printPart` that writes an opening bracket for part 0 and a comma for
every other part. -/
def bracketParts : Nat → Nat → Except String String :=
  fun _ part => if part = 0 then .ok "(" else .ok ","

/-! ## Elementary facts about the memory operations -/

@[simp] theorem getCount_addCount (m : Mem) (c : Nat) (d : Int) (j : Nat) :
    getCount (addCount m c d) j = if j = c then getCount m j + d else getCount m j := by
  unfold getCount addCount
  by_cases h : j = c
  · subst h; simp
  · simp [Function.update_noteq h, h]

@[simp] theorem deps_addCount (m : Mem) (c : Nat) (d : Int) (j : Nat) :
    ((addCount m c d).node j).dep_ = (m.node j).dep_ := by
  unfold addCount
  by_cases h : j = c
  · subst h; simp
  · simp [Function.update_noteq h]

@[simp] theorem getCount_setNull (m : Mem) (t i j : Nat) :
    getCount (setNull m t i) j = getCount m j := by
  unfold getCount setNull
  by_cases h : j = t
  · subst h; simp
  · simp [Function.update_noteq h]

theorem deps_setNull (m : Mem) (t i j : Nat) :
    ((setNull m t i).node j).dep_ =
      if j = t then (m.node j).dep_.set i none else (m.node j).dep_ := by
  unfold setNull
  by_cases h : j = t
  · subst h; simp
  · simp [Function.update_noteq h, h]

@[simp] theorem destroyed_addCount (m : Mem) (c : Nat) (d : Int) :
    (addCount m c d).destroyed = m.destroyed := rfl

@[simp] theorem pushed_addCount (m : Mem) (c : Nat) (d : Int) :
    (addCount m c d).pushed = m.pushed := rfl

@[simp] theorem maxStack_addCount (m : Mem) (c : Nat) (d : Int) :
    (addCount m c d).maxStack = m.maxStack := rfl

@[simp] theorem maxNest_addCount (m : Mem) (c : Nat) (d : Int) :
    (addCount m c d).maxNest = m.maxNest := rfl

@[simp] theorem destroyed_setNull (m : Mem) (t i : Nat) :
    (setNull m t i).destroyed = m.destroyed := rfl

@[simp] theorem pushed_setNull (m : Mem) (t i : Nat) :
    (setNull m t i).pushed = m.pushed := rfl

@[simp] theorem maxStack_setNull (m : Mem) (t i : Nat) :
    (setNull m t i).maxStack = m.maxStack := rfl

@[simp] theorem maxNest_setNull (m : Mem) (t i : Nat) :
    (setNull m t i).maxNest = m.maxNest := rfl

@[simp] theorem getCount_push (m : Mem) (c : Nat) (st : List Nat) (j : Nat) :
    getCount (push m c st) j = if j = c then getCount m j + 1 else getCount m j := by
  have h : getCount (push m c st) j = getCount (addCount m c 1) j := rfl
  rw [h, getCount_addCount]

@[simp] theorem deps_push (m : Mem) (c : Nat) (st : List Nat) (j : Nat) :
    ((push m c st).node j).dep_ = (m.node j).dep_ := by
  have h : ((push m c st).node j).dep_ = ((addCount m c 1).node j).dep_ := rfl
  rw [h, deps_addCount]

@[simp] theorem destroyed_push (m : Mem) (c : Nat) (st : List Nat) :
    (push m c st).destroyed = m.destroyed := rfl

@[simp] theorem pushed_push (m : Mem) (c : Nat) (st : List Nat) :
    (push m c st).pushed = c :: m.pushed := rfl

@[simp] theorem maxStack_push (m : Mem) (c : Nat) (st : List Nat) :
    (push m c st).maxStack = max m.maxStack (st.length + 1) := rfl

@[simp] theorem maxNest_push (m : Mem) (c : Nat) (st : List Nat) :
    (push m c st).maxNest = m.maxNest := rfl

@[simp] theorem getCount_enter (m : Mem) (s d j : Nat) :
    getCount (enter m s d) j = getCount m j := rfl

@[simp] theorem node_enter (m : Mem) (s d : Nat) : (enter m s d).node = m.node := rfl

@[simp] theorem destroyed_enter (m : Mem) (s d : Nat) :
    (enter m s d).destroyed = s :: m.destroyed := rfl

@[simp] theorem pushed_enter (m : Mem) (s d : Nat) : (enter m s d).pushed = m.pushed := rfl

@[simp] theorem maxStack_enter (m : Mem) (s d : Nat) :
    (enter m s d).maxStack = m.maxStack := rfl

@[simp] theorem maxNest_enter (m : Mem) (s d : Nat) :
    (enter m s d).maxNest = max m.maxNest d := rfl

theorem dep_def (m : Mem) (t i : Nat) : dep m t i = (m.node t).dep_.getD i none := rfl

theorem ndep_def (m : Mem) (t : Nat) : ndep m t = (m.node t).dep_.length := rfl

@[simp] theorem dep_addCount (m : Mem) (c : Nat) (d : Int) (t i : Nat) :
    dep (addCount m c d) t i = dep m t i := by
  simp [dep_def]

@[simp] theorem dep_push (m : Mem) (c : Nat) (st : List Nat) (t i : Nat) :
    dep (push m c st) t i = dep m t i := by
  simp [dep_def]

@[simp] theorem dep_enter (m : Mem) (s d t i : Nat) : dep (enter m s d) t i = dep m t i := rfl

@[simp] theorem ndep_addCount (m : Mem) (c : Nat) (d : Int) (t : Nat) :
    ndep (addCount m c d) t = ndep m t := by
  simp [ndep_def]

@[simp] theorem ndep_push (m : Mem) (c : Nat) (st : List Nat) (t : Nat) :
    ndep (push m c st) t = ndep m t := by
  simp [ndep_def]

@[simp] theorem ndep_enter (m : Mem) (s d t : Nat) : ndep (enter m s d) t = ndep m t := rfl

@[simp] theorem ndep_setNull (m : Mem) (t i j : Nat) : ndep (setNull m t i) j = ndep m j := by
  simp only [ndep_def, deps_setNull]
  split <;> simp

theorem getD_set_none (l : List (Option Nat)) (i k : Nat) :
    (l.set i none).getD k none = if k = i then none else l.getD k none := by
  simp only [List.getD_eq_getElem?_getD, List.getElem?_set]
  by_cases h : i = k
  · subst h; by_cases h2 : i < l.length <;> simp [h2]
  · have h' : ¬ k = i := fun e => h e.symm
    simp [h, h']

theorem dep_setNull (m : Mem) (t i j k : Nat) :
    dep (setNull m t i) j k = if j = t ∧ k = i then none else dep m j k := by
  simp only [dep_def, deps_setNull]
  by_cases h : j = t
  · simp only [h, if_true, true_and, getD_set_none]
  · simp [h]

/-! ## What a single examination does -/

theorem release_of_ne_one (del : Mem → Nat → Option Mem) (m : Mem) (c : Nat)
    (h : getCount m c ≠ 1) : release del m c = some (addCount m c (-1)) := by
  unfold release
  have : ¬ getCount (addCount m c (-1)) c = 0 := by
    simp only [getCount_addCount, if_true]; omega
  simp only [this, if_false]

theorem release_of_eq_one (del : Mem → Nat → Option Mem) (m : Mem) (c : Nat)
    (h : getCount m c = 1) : release del m c = del (addCount m c (-1)) c := by
  unfold release
  have : getCount (addCount m c (-1)) c = 0 := by
    simp only [getCount_addCount, if_true]; omega
  simp only [this, if_true]

theorem visit_null (del : Mem → Nat → Option Mem) (m : Mem) (stack : List Nat) (t i : Nat)
    (h : dep m t i = none) : visit del m stack t i = some (m, none) := by
  unfold visit; rw [h]

theorem visit_drop (del : Mem → Nat → Option Mem) (m : Mem) (stack : List Nat) (t i c : Nat)
    (h : dep m t i = some c) (hc : getCount m c ≠ 1) :
    visit del m stack t i = some (dropHandle m t i c, none) := by
  unfold visit assignNull; rw [h]
  simp only [hc, if_false, release_of_ne_one del m c hc]
  rfl

theorem visit_move (del : Mem → Nat → Option Mem) (m : Mem) (stack : List Nat) (t i c : Nat)
    (h : dep m t i = some c) (hc : getCount m c = 1) :
    visit del m stack t i = some (moveToStack m stack t i c, some c) := by
  unfold visit assignNull; rw [h]
  have h2 : getCount (push m c stack) c ≠ 1 := by simp [hc]
  simp only [hc, if_true, dep_push, h, release_of_ne_one del _ c h2]
  rfl

/-! ## Counting handles -/

theorem lt_of_getD_eq_some (l : List (Option Nat)) (i c : Nat) (h : l.getD i none = some c) :
    i < l.length := by
  by_contra hlt
  rw [List.getD_eq_default _ _ (by omega)] at h
  cases h

theorem getElem_of_getD_eq_some (l : List (Option Nat)) (i c : Nat) (h : l.getD i none = some c) :
    ∃ hi : i < l.length, l[i] = some c := by
  have hi := lt_of_getD_eq_some l i c h
  refine ⟨hi, ?_⟩
  rw [List.getD_eq_getElem _ _ hi] at h
  exact h

theorem count_pos_of_getD (l : List (Option Nat)) (i c : Nat) (h : l.getD i none = some c) :
    0 < l.count (some c) := by
  obtain ⟨hi, he⟩ := getElem_of_getD_eq_some l i c h
  rw [List.count_pos_iff]
  rw [← he]; exact List.getElem_mem _

theorem count_set_none_same (l : List (Option Nat)) (i c : Nat) (h : l.getD i none = some c) :
    (l.set i none).count (some c) + 1 = l.count (some c) := by
  obtain ⟨hi, he⟩ := getElem_of_getD_eq_some l i c h
  have hp := count_pos_of_getD l i c h
  rw [List.count_set _ _ _ _ hi, he]
  simp
  omega

theorem count_set_none_other (l : List (Option Nat)) (i c id : Nat) (h : l.getD i none = some c)
    (hne : id ≠ c) : (l.set i none).count (some id) = l.count (some id) := by
  obtain ⟨hi, he⟩ := getElem_of_getD_eq_some l i c h
  rw [List.count_set _ _ _ _ hi, he]
  have : ¬ c = id := fun e => hne e.symm
  simp [this]

theorem countP_set_none (l : List (Option Nat)) (i c : Nat) (h : l.getD i none = some c) :
    (l.set i none).countP Option.isSome + 1 = l.countP Option.isSome := by
  obtain ⟨hi, he⟩ := getElem_of_getD_eq_some l i c h
  have hp : 0 < l.countP Option.isSome := by
    rw [List.countP_pos_iff]
    exact ⟨l[i], List.getElem_mem _, by rw [he]; rfl⟩
  rw [List.countP_set _ _ _ _ hi, he]
  simp
  omega

theorem mem_of_mem_set_none (l : List (Option Nat)) (i x : Nat) (h : some x ∈ l.set i none) :
    some x ∈ l := by
  rcases List.mem_or_eq_of_mem_set h with h | h
  · exact h
  · cases h

theorem getD_none_of_count (l : List (Option Nat)) (h : ∀ i, l.getD i none = none) (id : Nat) :
    l.count (some id) = 0 := by
  rw [List.count_eq_zero]
  intro hm
  obtain ⟨i, hi, he⟩ := List.getElem_of_mem hm
  have := h i
  rw [List.getD_eq_getElem _ _ hi, he] at this
  cases this

theorem sumTo_congr (f g : Nat → Nat) (n : Nat) (h : ∀ j, j < n → f j = g j) :
    sumTo f n = sumTo g n := by
  induction n with
  | zero => rfl
  | succ n ih =>
    simp only [sumTo]
    rw [ih (fun j hj => h j (by omega)), h n (by omega)]

theorem sumTo_change (f g : Nat → Nat) (n t : Nat) (ht : t < n)
    (h : ∀ j, j ≠ t → f j = g j) : sumTo f n + g t = sumTo g n + f t := by
  induction n with
  | zero => omega
  | succ n ih =>
    simp only [sumTo]
    by_cases hn : t = n
    · subst hn
      rw [sumTo_congr f g t (fun j hj => h j (by omega))]
      omega
    · have := ih (by omega)
      rw [h n (fun e => hn e.symm)]
      omega

theorem sumTo_le (f g : Nat → Nat) (n : Nat) (h : ∀ j, j < n → f j ≤ g j) :
    sumTo f n ≤ sumTo g n := by
  induction n with
  | zero => exact Nat.le_refl _
  | succ n ih =>
    simp only [sumTo]
    have := ih (fun j hj => h j (by omega))
    have := h n (by omega)
    omega

theorem le_sumTo (f : Nat → Nat) (n t : Nat) (ht : t < n) : f t ≤ sumTo f n := by
  induction n with
  | zero => omega
  | succ n ih =>
    simp only [sumTo]
    by_cases hn : t = n
    · subst hn; omega
    · have := ih (by omega); omega

theorem sumTo_split (f : Nat → Nat) (n : Nat) (D : List Nat) (hD : D.Nodup)
    (hlt : ∀ j ∈ D, j < n) :
    sumTo f n = sumTo (fun j => if j ∈ D then 0 else f j) n + (D.map f).sum := by
  induction D with
  | nil => simp
  | cons a D ih =>
    have hnd := List.nodup_cons.mp hD
    have ha : a < n := hlt a (List.mem_cons_self _ _)
    have ih2 := ih hnd.2 (fun j hj => hlt j (List.mem_cons_of_mem _ hj))
    have hch := sumTo_change (fun j => if j ∈ a :: D then 0 else f j)
      (fun j => if j ∈ D then 0 else f j) n a ha (by
        intro j hj
        simp [hj])
    have e1 : (if a ∈ D then 0 else f a) = f a := by simp [hnd.1]
    have e2 : (if a ∈ a :: D then 0 else f a) = 0 := by simp
    simp only [e1, e2] at hch
    simp only [List.map_cons, List.sum_cons]
    omega

/-! ## Effect of clearing one handle on the handle counts -/

theorem mem_deps_of_dep (m : Mem) (t i c : Nat) (h : dep m t i = some c) :
    some c ∈ (m.node t).dep_ := by
  obtain ⟨hi, he⟩ := getElem_of_getD_eq_some _ i c h
  rw [← he]; exact List.getElem_mem _

theorem refsIn_pos_of_dep (m : Mem) (t i c : Nat) (h : dep m t i = some c) :
    0 < refsIn m.node t c := count_pos_of_getD _ i c h

theorem handles_pos_of_dep (m : Mem) (n t i c : Nat) (ht : t < n) (h : dep m t i = some c) :
    0 < handles m.node n c := by
  have h1 := refsIn_pos_of_dep m t i c h
  have h2 := le_sumTo (fun j => refsIn m.node j c) n t ht
  unfold handles
  simp only at h2
  omega

theorem clearedAt_dropHandle (m : Mem) (t i c : Nat) : ClearedAt m (dropHandle m t i c) t i := by
  intro j
  simp [dropHandle, deps_setNull]

theorem clearedAt_moveToStack (m : Mem) (st : List Nat) (t i c : Nat) :
    ClearedAt m (moveToStack m st t i c) t i := by
  intro j
  simp [moveToStack, deps_setNull]

theorem ClearedAt.refsIn_same {m m2 : Mem} {t i c : Nat} (h : ClearedAt m m2 t i)
    (hd : dep m t i = some c) : refsIn m2.node t c + 1 = refsIn m.node t c := by
  unfold refsIn
  rw [h t]
  simp only [if_true]
  exact count_set_none_same _ i c hd

theorem ClearedAt.refsIn_other {m m2 : Mem} {t i c : Nat} (h : ClearedAt m m2 t i)
    (hd : dep m t i = some c) (j id : Nat) (hne : j ≠ t ∨ id ≠ c) :
    refsIn m2.node j id = refsIn m.node j id := by
  unfold refsIn
  rw [h j]
  by_cases hj : j = t
  · subst hj
    simp only [if_true]
    rcases hne with hne | hne
    · exact absurd rfl hne
    · exact count_set_none_other _ i c id hd hne
  · simp [hj]

theorem ClearedAt.handles_same {m m2 : Mem} {t i c : Nat} (h : ClearedAt m m2 t i)
    (hd : dep m t i = some c) (n : Nat) (ht : t < n) :
    handles m2.node n c + 1 = handles m.node n c := by
  have h1 := sumTo_change (fun j => refsIn m2.node j c) (fun j => refsIn m.node j c) n t ht
    (fun j hj => h.refsIn_other hd j c (Or.inl hj))
  have h2 := h.refsIn_same hd
  unfold handles
  simp only at h1
  omega

theorem ClearedAt.handles_other {m m2 : Mem} {t i c : Nat} (h : ClearedAt m m2 t i)
    (hd : dep m t i = some c) (n id : Nat) (hne : id ≠ c) :
    handles m2.node n id = handles m.node n id := by
  unfold handles
  exact sumTo_congr _ _ n (fun j _ => h.refsIn_other hd j id (Or.inr hne))

theorem ClearedAt.liveIn_same {m m2 : Mem} {t i c : Nat} (h : ClearedAt m m2 t i)
    (hd : dep m t i = some c) : liveIn m2.node t + 1 = liveIn m.node t := by
  unfold liveIn
  rw [h t]
  simp only [if_true]
  exact countP_set_none _ i c hd

theorem ClearedAt.totalLive {m m2 : Mem} {t i c : Nat} (h : ClearedAt m m2 t i)
    (hd : dep m t i = some c) (n : Nat) (ht : t < n) :
    totalLive m2.node n + 1 = totalLive m.node n := by
  have h1 := sumTo_change (liveIn m2.node) (liveIn m.node) n t ht
    (fun j hj => by unfold liveIn; rw [h j]; simp [hj])
  have h2 := h.liveIn_same hd
  unfold CasADi.totalLive
  omega

theorem ClearedAt.mem {m m2 : Mem} {t i : Nat} (h : ClearedAt m m2 t i) (j x : Nat)
    (hx : some x ∈ (m2.node j).dep_) : some x ∈ (m.node j).dep_ := by
  rw [h j] at hx
  by_cases hj : j = t
  · simp only [hj, if_true] at hx
    rw [hj]; exact mem_of_mem_set_none _ i x hx
  · simpa [hj] using hx

theorem ClearedAt.dep_eq {m m2 : Mem} {t i : Nat} (h : ClearedAt m m2 t i) (j k : Nat) :
    dep m2 j k = if j = t ∧ k = i then none else dep m j k := by
  simp only [dep_def, h j]
  by_cases hj : j = t
  · simp only [hj, if_true, true_and, getD_set_none]
  · simp [hj]

theorem ClearedAt.deps_other {m m2 : Mem} {t i : Nat} (h : ClearedAt m m2 t i) (j : Nat)
    (hj : j ≠ t) : (m2.node j).dep_ = (m.node j).dep_ := by
  rw [h j]; simp [hj]

/-! ## Consistent memories and the teardown invariant -/

theorem StackLevels.le_length {lvl : Nat → Nat} :
    ∀ {stack : List Nat}, StackLevels lvl stack → ∀ c ∈ stack, lvl c ≤ stack.length
  | [], _, c, hc => absurd hc (List.not_mem_nil c)
  | a :: rest, h, c, hc => by
    rcases List.mem_cons.mp hc with e | e
    · rw [e]; exact h.1
    · have := StackLevels.le_length h.2 c e
      simp only [List.length_cons]
      omega

/-- What the invariant says about a child that still has a handle pointing to it. -/
theorem Inv.of_handle {n : Nat} {nd0 : Nat → MXNode} {root : Nat} {m : Mem}
    {stack loc : List Nat} (hI : Inv n nd0 root m stack loc) {t i c : Nat} (ht : t < n)
    (hd : dep m t i = some c) :
    c < n ∧ c ∉ stack ∧ c ∉ m.destroyed ∧ 1 ≤ getCount m c ∧
      (getCount m c = 1 → loc.count c = 0) := by
  have hc : c < n := hI.closed t ht c (mem_deps_of_dep m t i c hd)
  have hh := handles_pos_of_dep m n t i c ht hd
  have hcnt := hI.counts c hc
  have hext := hI.ext_nonneg c hc
  have hns : c ∉ stack := by
    intro hs
    have h1 := hI.stack_count c hs
    have h2 : 0 < stack.count c := List.count_pos_iff.mpr hs
    omega
  refine ⟨hc, hns, ?_, by omega, fun h1 => by omega⟩
  intro hD
  have := (hI.destroyed_iff c hc).mp hD
  omega

theorem getCount_dropHandle (m : Mem) (t i c j : Nat) :
    getCount (dropHandle m t i c) j = if j = c then getCount m j + -1 else getCount m j := by
  simp [dropHandle]

theorem getCount_moveToStack (m : Mem) (st : List Nat) (t i c j : Nat) :
    getCount (moveToStack m st t i c) j = getCount m j := by
  simp only [moveToStack, getCount_setNull, getCount_addCount, getCount_push]
  split <;> omega

@[simp] theorem destroyed_dropHandle (m : Mem) (t i c : Nat) :
    (dropHandle m t i c).destroyed = m.destroyed := rfl

@[simp] theorem pushed_dropHandle (m : Mem) (t i c : Nat) :
    (dropHandle m t i c).pushed = m.pushed := rfl

@[simp] theorem maxStack_dropHandle (m : Mem) (t i c : Nat) :
    (dropHandle m t i c).maxStack = m.maxStack := rfl

@[simp] theorem maxNest_dropHandle (m : Mem) (t i c : Nat) :
    (dropHandle m t i c).maxNest = m.maxNest := rfl

@[simp] theorem destroyed_moveToStack (m : Mem) (st : List Nat) (t i c : Nat) :
    (moveToStack m st t i c).destroyed = m.destroyed := rfl

@[simp] theorem pushed_moveToStack (m : Mem) (st : List Nat) (t i c : Nat) :
    (moveToStack m st t i c).pushed = c :: m.pushed := rfl

@[simp] theorem maxStack_moveToStack (m : Mem) (st : List Nat) (t i c : Nat) :
    (moveToStack m st t i c).maxStack = max m.maxStack (st.length + 1) := rfl

@[simp] theorem maxNest_moveToStack (m : Mem) (st : List Nat) (t i c : Nat) :
    (moveToStack m st t i c).maxNest = m.maxNest := rfl

/-- Clearing a handle to a child that has other owners keeps the invariant. -/
theorem Inv.drop {n : Nat} {nd0 : Nat → MXNode} {root : Nat} {m : Mem}
    {stack loc : List Nat} (hI : Inv n nd0 root m stack loc) {t i c : Nat} (ht : t < n)
    (htS : t ∈ stack ∨ t = root) (hd : dep m t i = some c) (hc1 : getCount m c ≠ 1) :
    Inv n nd0 root (dropHandle m t i c) stack loc := by
  obtain ⟨hc, hns, hnD, hge, _⟩ := hI.of_handle ht hd
  have hcl := clearedAt_dropHandle m t i c
  refine
    { root_lt := hI.root_lt
      ext_nonneg := hI.ext_nonneg
      closed := fun j hj x hx => hI.closed j hj x (hcl.mem j x hx)
      counts := ?_
      stack_lt := hI.stack_lt
      stack_nodup := hI.stack_nodup
      stack_count := ?_
      root_destroyed := hI.root_destroyed
      destroyed_iff := ?_
      destroyed_lt := hI.destroyed_lt
      destroyed_nodup := hI.destroyed_nodup
      destroyed_null := ?_
      frame := ?_
      sub_init := fun j x hx => hI.sub_init j x (hcl.mem j x hx)
      pushed_nodup := hI.pushed_nodup
      pushed_sub := hI.pushed_sub
      stack_pushed := hI.stack_pushed
      maxStack_le := hI.maxStack_le
      nest := hI.nest
      destroyed_sub := hI.destroyed_sub
      reach := hI.reach
      root_not_pushed := hI.root_not_pushed
      level_stack := hI.level_stack
      level_pushed := hI.level_pushed }
  · intro id hid
    have h0 := hI.counts id hid
    rw [getCount_dropHandle]
    by_cases e : id = c
    · subst e
      have := hcl.handles_same hd n ht
      simp only [if_true]
      omega
    · rw [hcl.handles_other hd n id e]
      simp only [e, if_false]
      exact h0
  · intro id hid
    rw [getCount_dropHandle]
    have e : id ≠ c := fun e => hns (e ▸ hid)
    simp only [e, if_false]
    exact hI.stack_count id hid
  · intro id hid
    rw [getCount_dropHandle]
    by_cases e : id = c
    · subst e
      simp only [if_true, destroyed_dropHandle]
      constructor
      · intro h; exact absurd h hnD
      · intro h; omega
    · simp only [e, if_false, destroyed_dropHandle]
      exact hI.destroyed_iff id hid
  · intro id hid hne k
    rw [hcl.dep_eq]
    split
    · rfl
    · exact hI.destroyed_null id hid hne k
  · intro j hj hjD hjS
    have hjt : j ≠ t := by
      rintro rfl
      rcases htS with h | h
      · exact hjS h
      · exact hjD (h ▸ hI.root_destroyed)
    rw [hcl.deps_other j hjt]
    exact hI.frame j hj hjD hjS

/-- Moving a child whose only owner is the handle examined to the deletion stack
keeps the invariant, with the child on the stack. -/
theorem Inv.move {n : Nat} {nd0 : Nat → MXNode} {root : Nat} {m : Mem}
    {stack loc : List Nat} (hI : Inv n nd0 root m stack loc) {t i c : Nat} (ht : t < n)
    (htS : t ∈ stack ∨ t = root) (hd : dep m t i = some c) (hc1 : getCount m c = 1) :
    Inv n nd0 root (moveToStack m stack t i c) (c :: stack) loc := by
  obtain ⟨hc, hns, hnD, hge, hloc⟩ := hI.of_handle ht hd
  have hcl := clearedAt_moveToStack m stack t i c
  have hcp : c ∉ m.pushed := by
    intro h
    rcases hI.pushed_sub c h with h | h
    · exact hns h
    · exact hnD h
  have hlvl : ∀ lvl, Levelled nd0 root lvl → lvl c ≤ stack.length + 1 := by
    intro lvl hl
    have h1 := hl.2 t c (hI.sub_init t c (mem_deps_of_dep m t i c hd))
    have h2 : lvl t ≤ stack.length := by
      rcases htS with h | h
      · exact (hI.level_stack lvl hl).le_length t h
      · rw [h, hl.1]; exact Nat.zero_le _
    omega
  refine
    { root_lt := hI.root_lt
      ext_nonneg := hI.ext_nonneg
      closed := fun j hj x hx => hI.closed j hj x (hcl.mem j x hx)
      counts := ?_
      stack_lt := ?_
      stack_nodup := List.nodup_cons.mpr ⟨hns, hI.stack_nodup⟩
      stack_count := ?_
      root_destroyed := hI.root_destroyed
      destroyed_iff := ?_
      destroyed_lt := hI.destroyed_lt
      destroyed_nodup := hI.destroyed_nodup
      destroyed_null := ?_
      frame := ?_
      sub_init := fun j x hx => hI.sub_init j x (hcl.mem j x hx)
      pushed_nodup := List.nodup_cons.mpr ⟨hcp, hI.pushed_nodup⟩
      pushed_sub := ?_
      stack_pushed := ?_
      maxStack_le := ?_
      nest := hI.nest
      destroyed_sub := fun x hx => (hI.destroyed_sub x hx).imp (fun e => e) (List.mem_cons_of_mem _)
      reach := ?_
      root_not_pushed := ?_
      level_stack := fun lvl hl => ⟨hlvl lvl hl, hI.level_stack lvl hl⟩
      level_pushed := ?_ }
  · intro id hid
    have h0 := hI.counts id hid
    rw [getCount_moveToStack]
    by_cases e : id = c
    · subst e
      have := hcl.handles_same hd n ht
      simp only [List.count_cons_self]
      push_cast
      omega
    · rw [hcl.handles_other hd n id e]
      have e2 : ¬ (c == id) = true := by simpa using fun h => e h.symm
      simp only [List.count_cons, e2, if_false]
      simpa using h0
  · intro id hid
    rcases List.mem_cons.mp hid with h | h
    · exact h ▸ hc
    · exact hI.stack_lt id h
  · intro id hid
    rw [getCount_moveToStack]
    rcases List.mem_cons.mp hid with h | h
    · subst h
      have := hloc hc1
      omega
    · exact hI.stack_count id h
  · intro id hid
    rw [getCount_moveToStack]
    exact hI.destroyed_iff id hid
  · intro id hid hne k
    rw [hcl.dep_eq]
    split
    · rfl
    · exact hI.destroyed_null id hid hne k
  · intro j hj hjD hjS
    have hjS2 : j ∉ stack := fun h => hjS (List.mem_cons_of_mem _ h)
    have hjt : j ≠ t := by
      rintro rfl
      rcases htS with h | h
      · exact hjS2 h
      · exact hjD (h ▸ hI.root_destroyed)
    rw [hcl.deps_other j hjt]
    exact hI.frame j hj hjD hjS2
  · intro id hid
    rcases List.mem_cons.mp hid with h | h
    · exact Or.inl (h ▸ List.mem_cons_self _ _)
    · rcases hI.pushed_sub id h with h2 | h2
      · exact Or.inl (List.mem_cons_of_mem _ h2)
      · exact Or.inr h2
  · intro id hid
    rcases List.mem_cons.mp hid with h | h
    · exact h ▸ List.mem_cons_self _ _
    · exact List.mem_cons_of_mem _ (hI.stack_pushed id h)
  · have h1 : stack.length ≤ m.pushed.length :=
      (List.subperm_of_subset hI.stack_nodup hI.stack_pushed).length_le
    have h2 := hI.maxStack_le
    simp only [maxStack_moveToStack, pushed_moveToStack, List.length_cons]
    omega
  · intro id hid
    rcases List.mem_cons.mp hid with h | h
    · rw [h]
      have hrt : Reach nd0 root t := by
        rcases htS with h2 | h2
        · exact hI.reach t (hI.stack_pushed t h2)
        · rw [h2]; exact Reach.refl
      exact Reach.step hrt (hI.sub_init t c (mem_deps_of_dep m t i c hd))
    · exact hI.reach id h
  · intro h
    rcases List.mem_cons.mp h with e | e
    · exact hnD (e ▸ hI.root_destroyed)
    · exact hI.root_not_pushed e
  · intro lvl hl x hx
    simp only [maxStack_moveToStack]
    rcases List.mem_cons.mp hx with e | e
    · have := hlvl lvl hl
      rw [e]; omega
    · have := hI.level_pushed lvl hl x e
      omega

theorem handles_congr_deps (nd nd2 : Nat → MXNode) (n id : Nat)
    (h : ∀ j, (nd2 j).dep_ = (nd j).dep_) : handles nd2 n id = handles nd n id := by
  unfold handles
  exact sumTo_congr _ _ n (fun j _ => by unfold refsIn; rw [h j])

theorem totalLive_congr_deps (nd nd2 : Nat → MXNode) (n : Nat)
    (h : ∀ j, (nd2 j).dep_ = (nd j).dep_) : totalLive nd2 n = totalLive nd n := by
  unfold totalLive
  exact sumTo_congr _ _ n (fun j _ => by unfold liveIn; rw [h j])

/-- A change of owner counts that is matched by a change of the local handles
keeps the invariant. -/
theorem Inv.adjust {n : Nat} {nd0 : Nat → MXNode} {root : Nat} {m : Mem}
    {stack loc : List Nat} (hI : Inv n nd0 root m stack loc) (m2 : Mem) (loc2 : List Nat)
    (hdeps : ∀ j, (m2.node j).dep_ = (m.node j).dep_)
    (hD : m2.destroyed = m.destroyed) (hP : m2.pushed = m.pushed)
    (hS : m2.maxStack = m.maxStack) (hN : m2.maxNest = m.maxNest)
    (hcount : ∀ id, id < n → getCount m2 id - loc2.count id = getCount m id - loc.count id)
    (hnz : ∀ id, id < n → (getCount m2 id = 0 ↔ getCount m id = 0)) :
    Inv n nd0 root m2 stack loc2 := by
  refine
    { root_lt := hI.root_lt
      ext_nonneg := hI.ext_nonneg
      closed := fun j hj x hx => hI.closed j hj x (by rw [← hdeps j]; exact hx)
      counts := ?_
      stack_lt := hI.stack_lt
      stack_nodup := hI.stack_nodup
      stack_count := ?_
      root_destroyed := hD ▸ hI.root_destroyed
      destroyed_iff := ?_
      destroyed_lt := hD ▸ hI.destroyed_lt
      destroyed_nodup := hD ▸ hI.destroyed_nodup
      destroyed_null := ?_
      frame := ?_
      sub_init := fun j x hx => hI.sub_init j x (by rw [← hdeps j]; exact hx)
      pushed_nodup := hP ▸ hI.pushed_nodup
      pushed_sub := ?_
      stack_pushed := ?_
      maxStack_le := by rw [hS, hP]; exact hI.maxStack_le
      nest := by rw [hN]; exact hI.nest
      destroyed_sub := by rw [hD, hP]; exact hI.destroyed_sub
      reach := by rw [hP]; exact hI.reach
      root_not_pushed := by rw [hP]; exact hI.root_not_pushed
      level_stack := hI.level_stack
      level_pushed := by rw [hP, hS]; exact hI.level_pushed }
  · intro id hid
    have h0 := hI.counts id hid
    have h1 := hcount id hid
    rw [handles_congr_deps m.node m2.node n id hdeps]
    omega
  · intro id hid
    have h0 := hI.stack_count id hid
    have h1 := hcount id (hI.stack_lt id hid)
    omega
  · intro id hid
    rw [hD, hnz id hid]
    exact hI.destroyed_iff id hid
  · intro id hid hne k
    rw [hD] at hid
    have := hI.destroyed_null id hid hne k
    rw [dep_def] at this ⊢
    rw [hdeps id]; exact this
  · intro j hj hjD hjS
    rw [hD] at hjD
    rw [hdeps j]
    exact hI.frame j hj hjD hjS
  · intro id hid
    rw [hP] at hid; rw [hD]
    exact hI.pushed_sub id hid
  · intro id hid
    rw [hP]; exact hI.stack_pushed id hid

/-- Taking the local copy `t` of the top of the stack. -/
theorem Inv.takeTop {n : Nat} {nd0 : Nat → MXNode} {root : Nat} {m : Mem}
    {t : Nat} {rest : List Nat} (hI : Inv n nd0 root m (t :: rest) []) :
    Inv n nd0 root (addCount m t 1) (t :: rest) [t] := by
  have ht := hI.stack_count t (List.mem_cons_self _ _)
  simp only [List.count_nil, Nat.cast_zero, add_zero] at ht
  refine hI.adjust (addCount m t 1) [t] (fun j => deps_addCount m t 1 j) rfl rfl rfl rfl ?_ ?_
  · intro id _
    rw [getCount_addCount]
    by_cases e : id = t
    · subst e; simp
    · have e2 : ¬ (t == id) = true := by simpa using fun h => e h.symm
      simp [e, List.count_cons, e2]
  · intro id _
    rw [getCount_addCount]
    by_cases e : id = t
    · subst e; simp only [if_true]; omega
    · simp [e]

/-- Dropping the local copy `t` while `t` stays on the stack. -/
theorem Inv.dropLocal {n : Nat} {nd0 : Nat → MXNode} {root : Nat} {m : Mem}
    {t : Nat} {stack : List Nat} (hI : Inv n nd0 root m stack [t]) (hts : t ∈ stack) :
    Inv n nd0 root (addCount m t (-1)) stack [] := by
  have ht := hI.stack_count t hts
  simp only [List.count_cons_self, List.count_nil] at ht
  refine hI.adjust (addCount m t (-1)) [] (fun j => deps_addCount m t (-1) j) rfl rfl rfl rfl ?_ ?_
  · intro id _
    rw [getCount_addCount]
    by_cases e : id = t
    · subst e; simp; omega
    · have e2 : ¬ (t == id) = true := by simpa using fun h => e h.symm
      simp [e, List.count_cons, e2]
  · intro id _
    rw [getCount_addCount]
    by_cases e : id = t
    · subst e; simp only [if_true]; push_cast at ht; omega
    · simp [e]

theorem getCount_popped (m : Mem) (t j : Nat) :
    getCount (popped m t) j = if j = t then getCount m j + -1 + -1 else getCount m j := by
  simp only [popped, getCount_enter, getCount_addCount]
  split <;> rfl

theorem deps_popped (m : Mem) (t j : Nat) : ((popped m t).node j).dep_ = (m.node j).dep_ := by
  simp [popped]

/-- Popping the top `t` once all its handles are null: both the stack's handle
and the local copy go, the node is destroyed. -/
theorem Inv.pop {n : Nat} {nd0 : Nat → MXNode} {root : Nat} {m : Mem}
    {t : Nat} {rest : List Nat} (hI : Inv n nd0 root m (t :: rest) [t])
    (hnull : ∀ i, dep m t i = none) : Inv n nd0 root (popped m t) rest [] := by
  have htm : t ∈ t :: rest := List.mem_cons_self _ _
  have ht := hI.stack_count t htm
  simp only [List.count_cons_self, List.count_nil] at ht
  push_cast at ht
  have htn := hI.stack_lt t htm
  have hnd := List.nodup_cons.mp hI.stack_nodup
  have htD : t ∉ m.destroyed := by
    intro h
    have := (hI.destroyed_iff t htn).mp h
    omega
  refine
    { root_lt := hI.root_lt
      ext_nonneg := hI.ext_nonneg
      closed := fun j hj x hx => hI.closed j hj x (by rw [← deps_popped m t j]; exact hx)
      counts := ?_
      stack_lt := fun id hid => hI.stack_lt id (List.mem_cons_of_mem _ hid)
      stack_nodup := hnd.2
      stack_count := ?_
      root_destroyed := List.mem_cons_of_mem _ hI.root_destroyed
      destroyed_iff := ?_
      destroyed_lt := ?_
      destroyed_nodup := List.nodup_cons.mpr ⟨htD, hI.destroyed_nodup⟩
      destroyed_null := ?_
      frame := ?_
      sub_init := fun j x hx => hI.sub_init j x (by rw [← deps_popped m t j]; exact hx)
      pushed_nodup := hI.pushed_nodup
      pushed_sub := ?_
      stack_pushed := fun id hid => hI.stack_pushed id (List.mem_cons_of_mem _ hid)
      maxStack_le := hI.maxStack_le
      nest := ?_
      destroyed_sub := ?_
      reach := hI.reach
      root_not_pushed := hI.root_not_pushed
      level_stack := fun lvl hl => (hI.level_stack lvl hl).2
      level_pushed := hI.level_pushed }
  · intro id hid
    have h0 := hI.counts id hid
    rw [getCount_popped, handles_congr_deps m.node _ n id (deps_popped m t)]
    by_cases e : id = t
    · subst e
      simp only [if_true, List.count_cons_self, List.count_nil] at h0 ⊢
      push_cast at h0 ⊢
      omega
    · have e2 : ¬ (t == id) = true := by simpa using fun h => e h.symm
      simp only [e, if_false, List.count_cons, e2, List.count_nil] at h0 ⊢
      push_cast at h0 ⊢
      omega
  · intro id hid
    have e : id ≠ t := fun e => hnd.1 (e ▸ hid)
    have h0 := hI.stack_count id (List.mem_cons_of_mem _ hid)
    have e2 : ¬ (t == id) = true := by simpa using fun h => e h.symm
    rw [getCount_popped]
    simp only [e, if_false, List.count_cons, e2, List.count_nil] at h0 ⊢
    exact h0
  · intro id hid
    rw [getCount_popped]
    by_cases e : id = t
    · subst e
      simp only [if_true, popped, destroyed_enter, List.mem_cons, true_or, true_iff]
      omega
    · simp only [e, if_false, popped, destroyed_enter, List.mem_cons, false_or,
        destroyed_addCount]
      exact hI.destroyed_iff id hid
  · intro id hid
    rcases List.mem_cons.mp hid with h | h
    · exact h ▸ htn
    · exact hI.destroyed_lt id h
  · intro id hid hne k
    have hk : dep (popped m t) id k = dep m id k := by
      rw [dep_def, dep_def, deps_popped]
    rw [hk]
    rcases List.mem_cons.mp hid with h | h
    · rw [h]; exact hnull k
    · exact hI.destroyed_null id h hne k
  · intro j hj hjD hjS
    rw [deps_popped]
    have h1 : j ∉ m.destroyed := fun h => hjD (List.mem_cons_of_mem _ h)
    have h2 : j ≠ t := fun h => hjD (h ▸ List.mem_cons_self _ _)
    refine hI.frame j hj h1 ?_
    intro h
    rcases List.mem_cons.mp h with h | h
    · exact h2 h
    · exact hjS h
  · intro id hid
    rcases hI.pushed_sub id hid with h | h
    · rcases List.mem_cons.mp h with h | h
      · exact Or.inr (h ▸ List.mem_cons_self _ _)
      · exact Or.inl h
    · exact Or.inr (List.mem_cons_of_mem _ h)
  · have := hI.nest
    simp only [popped, maxNest_enter, maxNest_addCount]
    omega
  · intro id hid
    rcases List.mem_cons.mp hid with h | h
    · exact Or.inr (h ▸ hI.stack_pushed t htm)
    · exact hI.destroyed_sub id h

/-! ## The loops under the invariant -/

theorem Later.refl (n : Nat) (m : Mem) : Later n m m :=
  ⟨fun _ _ h => h, fun _ => rfl, Nat.le_refl _⟩

theorem Later.trans {n : Nat} {m m2 m3 : Mem} (h1 : Later n m m2) (h2 : Later n m2 m3) :
    Later n m m3 :=
  ⟨fun j k h => h2.null j k (h1.null j k h), fun j => (h2.size j).trans (h1.size j),
    Nat.le_trans h2.live h1.live⟩

theorem Later.of_deps {n : Nat} {m m2 : Mem} (h : ∀ j, (m2.node j).dep_ = (m.node j).dep_) :
    Later n m m2 :=
  ⟨fun j k hk => by rw [dep_def] at hk ⊢; rw [h j]; exact hk,
    fun j => by rw [ndep_def, ndep_def, h j],
    Nat.le_of_eq (totalLive_congr_deps m.node m2.node n h)⟩

theorem ClearedAt.later {n : Nat} {m m2 : Mem} {t i c : Nat} (h : ClearedAt m m2 t i)
    (hd : dep m t i = some c) (ht : t < n) : Later n m m2 := by
  refine ⟨?_, ?_, ?_⟩
  · intro j k hk
    rw [h.dep_eq]
    split
    · rfl
    · exact hk
  · intro j
    rw [ndep_def, ndep_def, h j]
    split <;> simp
  · have := h.totalLive hd n ht
    omega

theorem dep_eq_none_of_le (m : Mem) (t k : Nat) (h : ndep m t ≤ k) : dep m t k = none := by
  rw [dep_def]
  exact List.getD_eq_default _ _ h

theorem scanOwn_all_null (del : Mem → Nat → Option Mem) (drain : Mem → List Nat → Option Mem)
    (t : Nat) (m : Mem) (h : ∀ i, dep m t i = none) :
    ∀ k i, scanOwn del drain t k i m = some m := by
  intro k
  induction k with
  | zero => intro i; rfl
  | succ k ih =>
    intro i
    simp only [scanOwn, visit_null del m [] t i (h i)]
    exact ih (i + 1)

/-- The destructor of a node all of whose handles are null follows no child: it
returns at once and leaves the memory as it is. -/
theorem dtor_all_null (fuel depth : Nat) (m : Mem) (t : Nat) (h : ∀ i, dep m t i = none) :
    dtor (fuel + 1) depth m t = some (enter m t depth) := by
  simp only [dtor]
  exact scanOwn_all_null _ _ t (enter m t depth) (fun i => h i) _ _

theorem scanTop_spec {n : Nat} {nd0 : Nat → MXNode} {root : Nat}
    (del : Mem → Nat → Option Mem) (t : Nat) (rest : List Nat) :
    ∀ (k i : Nat) (m : Mem), Inv n nd0 root m (t :: rest) [t] →
      (∀ j, j < i → dep m t j = none) → i + k = ndep m t →
      ∃ m2, Later n m m2 ∧
        ((scanTop del t k i m (t :: rest) = some (m2, t :: rest, false) ∧
            Inv n nd0 root m2 (t :: rest) [t] ∧ (∀ j, dep m2 t j = none) ∧
            m2.pushed = m.pushed) ∨
          (∃ c, scanTop del t k i m (t :: rest) = some (m2, c :: t :: rest, true) ∧
            Inv n nd0 root m2 (c :: t :: rest) [t] ∧
            totalLive m2.node n + 1 ≤ totalLive m.node n)) := by
  intro k
  induction k with
  | zero =>
    intro i m hI hpre hik
    refine ⟨m, Later.refl n m, Or.inl ⟨rfl, hI, ?_, rfl⟩⟩
    intro j
    by_cases hj : j < i
    · exact hpre j hj
    · exact dep_eq_none_of_le m t j (by omega)
  | succ k ih =>
    intro i m hI hpre hik
    have htn : t < n := hI.stack_lt t (List.mem_cons_self _ _)
    have hts : t ∈ t :: rest ∨ t = root := Or.inl (List.mem_cons_self _ _)
    cases hd : dep m t i with
    | none =>
      obtain ⟨m2, hL, h⟩ := ih (i + 1) m hI
        (fun j hj => by
          by_cases e : j = i
          · rw [e]; exact hd
          · exact hpre j (by omega))
        (by omega)
      refine ⟨m2, hL, ?_⟩
      simp only [scanTop, visit_null del m (t :: rest) t i hd]
      exact h
    | some c =>
      by_cases hc : getCount m c = 1
      · refine ⟨moveToStack m (t :: rest) t i c,
          (clearedAt_moveToStack m (t :: rest) t i c).later hd htn, Or.inr ⟨c, ?_, ?_, ?_⟩⟩
        · simp only [scanTop, visit_move del m (t :: rest) t i c hd hc]
        · exact hI.move htn hts hd hc
        · exact Nat.le_of_eq ((clearedAt_moveToStack m (t :: rest) t i c).totalLive hd n htn)
      · have hcl := clearedAt_dropHandle m t i c
        have hL1 : Later n m (dropHandle m t i c) := hcl.later hd htn
        obtain ⟨m2, hL, h⟩ := ih (i + 1) (dropHandle m t i c) (hI.drop htn hts hd hc)
          (fun j hj => by
            rw [hcl.dep_eq]
            by_cases e : j = i
            · simp [e]
            · simp only [e, and_false, if_false]
              exact hpre j (by omega))
          (by rw [hL1.size]; omega)
        refine ⟨m2, hL1.trans hL, ?_⟩
        simp only [scanTop, visit_drop del m (t :: rest) t i c hd hc]
        rcases h with ⟨h1, h2, h3, h4⟩ | ⟨c2, h1, h2, h3⟩
        · exact Or.inl ⟨h1, h2, h3, h4⟩
        · exact Or.inr ⟨c2, h1, h2, by have := hL1.live; omega⟩

theorem drainIter_spec {n : Nat} {nd0 : Nat → MXNode} {root : Nat}
    (del : Mem → Nat → Option Mem) (hdel : TrivialDel del) (m : Mem) (t : Nat)
    (rest : List Nat) (hI : Inv n nd0 root m (t :: rest) []) :
    ∃ m2 stack2, drainIter del m t rest = some (m2, stack2) ∧ Inv n nd0 root m2 stack2 [] ∧
      Later n m m2 ∧
      2 * totalLive m2.node n + stack2.length < 2 * totalLive m.node n + (t :: rest).length := by
  have hI1 := hI.takeTop
  have hL0 : Later n m (addCount m t 1) := Later.of_deps (fun j => deps_addCount m t 1 j)
  obtain ⟨m2, hL, h⟩ := scanTop_spec del t rest (ndep (addCount m t 1) t) 0 (addCount m t 1) hI1
    (fun j hj => absurd hj (Nat.not_lt_zero j)) (by omega)
  rcases h with ⟨hs, hI2, hnull, _⟩ | ⟨c, hs, hI2, hlive⟩
  · -- nothing was pushed: pop
    have hc2 := hI2.stack_count t (List.mem_cons_self _ _)
    simp only [List.count_cons_self, List.count_nil] at hc2
    push_cast at hc2
    have hr1 : release del m2 t = some (addCount m2 t (-1)) :=
      release_of_ne_one del m2 t (by omega)
    have hr2 : release del (addCount m2 t (-1)) t = some (popped m2 t) := by
      rw [release_of_eq_one del _ t (by simp; omega)]
      exact hdel _ t (fun i => by simpa using hnull i)
    refine ⟨popped m2 t, rest, ?_, hI2.pop hnull, ?_, ?_⟩
    · simp only [drainIter, hs, hr1, hr2]
      rfl
    · exact (hL0.trans hL).trans (Later.of_deps (deps_popped m2 t))
    · have h1 := (hL0.trans hL).live
      have h2 := totalLive_congr_deps m2.node (popped m2 t).node n (deps_popped m2 t)
      simp only [List.length_cons]
      omega
  · -- a child was pushed
    have htm : t ∈ c :: t :: rest := List.mem_cons_of_mem _ (List.mem_cons_self _ _)
    have hc2 := hI2.stack_count t htm
    simp only [List.count_cons_self, List.count_nil] at hc2
    push_cast at hc2
    have hr1 : release del m2 t = some (addCount m2 t (-1)) :=
      release_of_ne_one del m2 t (by omega)
    refine ⟨addCount m2 t (-1), c :: t :: rest, ?_, hI2.dropLocal htm, ?_, ?_⟩
    · simp only [drainIter, hs, hr1]
      rfl
    · exact (hL0.trans hL).trans (Later.of_deps (fun j => deps_addCount m2 t (-1) j))
    · have h1 := hL0.live
      have h2 := totalLive_congr_deps m2.node (addCount m2 t (-1)).node n
        (fun j => deps_addCount m2 t (-1) j)
      simp only [List.length_cons]
      omega

theorem drainWith_spec {n : Nat} {nd0 : Nat → MXNode} {root : Nat}
    (del : Mem → Nat → Option Mem) (hdel : TrivialDel del) :
    ∀ (fuel : Nat) (m : Mem) (stack : List Nat), Inv n nd0 root m stack [] →
      2 * totalLive m.node n + stack.length ≤ fuel →
      ∃ m2, drainWith del fuel m stack = some m2 ∧ Inv n nd0 root m2 [] [] ∧ Later n m m2 := by
  intro fuel
  induction fuel with
  | zero =>
    intro m stack hI hf
    cases stack with
    | nil => exact ⟨m, rfl, hI, Later.refl n m⟩
    | cons t rest => simp only [List.length_cons] at hf; omega
  | succ fuel ih =>
    intro m stack hI hf
    cases stack with
    | nil => exact ⟨m, rfl, hI, Later.refl n m⟩
    | cons t rest =>
      obtain ⟨m1, stack1, hs, hI1, hL1, hlt⟩ := drainIter_spec del hdel m t rest hI
      obtain ⟨m2, hd, hI2, hL2⟩ := ih m1 stack1 hI1 (by omega)
      refine ⟨m2, ?_, hI2, hL1.trans hL2⟩
      simp only [drainWith, hs]
      exact hd

theorem scanOwn_spec {n : Nat} {nd0 : Nat → MXNode} {root : Nat}
    (del : Mem → Nat → Option Mem) (hdel : TrivialDel del) (fuel : Nat) :
    ∀ (k i : Nat) (m : Mem), Inv n nd0 root m [] [] →
      (∀ j, j < i → dep m root j = none) → i + k = ndep m root →
      2 * totalLive m.node n + 1 ≤ fuel →
      ∃ m2, scanOwn del (drainWith del fuel) root k i m = some m2 ∧
        Inv n nd0 root m2 [] [] ∧ Later n m m2 ∧ ∀ j, dep m2 root j = none := by
  intro k
  induction k with
  | zero =>
    intro i m hI hpre hik _
    refine ⟨m, rfl, hI, Later.refl n m, ?_⟩
    intro j
    by_cases hj : j < i
    · exact hpre j hj
    · exact dep_eq_none_of_le m root j (by omega)
  | succ k ih =>
    intro i m hI hpre hik hf
    have htn : root < n := hI.root_lt
    have hts : root ∈ ([] : List Nat) ∨ root = root := Or.inr rfl
    cases hd : dep m root i with
    | none =>
      obtain ⟨m2, h1, h2, h3, h4⟩ := ih (i + 1) m hI
        (fun j hj => by
          by_cases e : j = i
          · rw [e]; exact hd
          · exact hpre j (by omega))
        (by omega) hf
      refine ⟨m2, ?_, h2, h3, h4⟩
      simp only [scanOwn, visit_null del m [] root i hd]
      exact h1
    | some c =>
      by_cases hc : getCount m c = 1
      · have hcl := clearedAt_moveToStack m [] root i c
        have hL1 : Later n m (moveToStack m [] root i c) := hcl.later hd htn
        obtain ⟨m1, hdr, hI1, hLd⟩ := drainWith_spec del hdel fuel (moveToStack m [] root i c) [c]
          (hI.move htn hts hd hc) (by have := hL1.live; simp only [List.length_singleton]; omega)
        have hL2 := hL1.trans hLd
        obtain ⟨m2, h1, h2, h3, h4⟩ := ih (i + 1) m1 hI1
          (fun j hj => by
            apply hLd.null
            rw [hcl.dep_eq]
            by_cases e : j = i
            · simp [e]
            · simp only [e, and_false, if_false]
              exact hpre j (by omega))
          (by rw [hL2.size]; omega) (by have := hL2.live; omega)
        refine ⟨m2, ?_, h2, hL2.trans h3, h4⟩
        simp only [scanOwn, visit_move del m [] root i c hd hc, hdr]
        exact h1
      · have hcl := clearedAt_dropHandle m root i c
        have hL1 : Later n m (dropHandle m root i c) := hcl.later hd htn
        obtain ⟨m2, h1, h2, h3, h4⟩ := ih (i + 1) (dropHandle m root i c)
          (hI.drop htn hts hd hc)
          (fun j hj => by
            rw [hcl.dep_eq]
            by_cases e : j = i
            · simp [e]
            · simp only [e, and_false, if_false]
              exact hpre j (by omega))
          (by rw [hL1.size]; omega) (by have := hL1.live; omega)
        refine ⟨m2, ?_, h2, hL1.trans h3, h4⟩
        simp only [scanOwn, visit_drop del m [] root i c hd hc]
        exact h1

theorem Inv.start {n : Nat} {nd : Nat → MXNode} {root : Nat} (h : Consistent n nd root) :
    Inv n nd root (enter (Mem.init nd) root 0) [] [] := by
  refine
    { root_lt := h.root_lt
      ext_nonneg := h.counts
      closed := fun j hj c hc => h.closed j hj (some c) hc c rfl
      counts := fun id _ => by
        show (nd id).count + _ = _
        simp [Mem.init]
      stack_lt := fun id hid => absurd hid (List.not_mem_nil _)
      stack_nodup := List.nodup_nil
      stack_count := fun id hid => absurd hid (List.not_mem_nil _)
      root_destroyed := List.mem_cons_self _ _
      destroyed_iff := ?_
      destroyed_lt := ?_
      destroyed_nodup := by simp [Mem.init]
      destroyed_null := ?_
      frame := fun j _ _ _ => rfl
      sub_init := fun j c hc => hc
      pushed_nodup := List.nodup_nil
      pushed_sub := fun id hid => absurd hid (List.not_mem_nil _)
      stack_pushed := fun id hid => absurd hid (List.not_mem_nil _)
      maxStack_le := Nat.le_refl _
      nest := by simp [Mem.init]
      destroyed_sub := fun id hid => Or.inl (List.mem_singleton.mp hid)
      reach := fun id hid => absurd hid (List.not_mem_nil _)
      root_not_pushed := List.not_mem_nil _
      level_stack := fun _ _ => trivial
      level_pushed := fun _ _ c hc => absurd hc (List.not_mem_nil _) }
  · intro id hid
    show id ∈ [root] ↔ (nd id).count = 0
    constructor
    · intro e
      rw [List.mem_singleton.mp e]; exact h.root_count
    · intro e
      by_contra hne
      have := h.owned id hid (fun e2 => hne (by rw [e2]; exact List.mem_singleton_self _))
      omega
  · intro id hid
    have : id = root := List.mem_singleton.mp hid
    rw [this]; exact h.root_lt
  · intro id hid hne
    exact absurd (List.mem_singleton.mp hid) hne

/-- The teardown of a consistent memory: with enough fuel the destructor
returns, in a memory that satisfies the invariant with an empty stack and in
which every handle of the root is null. -/
theorem dtor_spec {n : Nat} {nd : Nat → MXNode} {root : Nat} (h : Consistent n nd root)
    (fuel : Nat) (hf : 2 * totalLive nd n + 3 ≤ fuel) :
    ∃ m2, dtor fuel 0 (Mem.init nd) root = some m2 ∧ Inv n nd root m2 [] [] ∧
      ∀ j, dep m2 root j = none := by
  obtain ⟨f, rfl⟩ : ∃ f, fuel = f + 2 := ⟨fuel - 2, by omega⟩
  have hdel : TrivialDel (dtor (f + 1) (0 + 1)) := fun m x hx => dtor_all_null f 1 m x hx
  obtain ⟨m2, h1, h2, _, h4⟩ := scanOwn_spec (dtor (f + 1) (0 + 1)) hdel (f + 1)
    (ndep (enter (Mem.init nd) root 0) root) 0 (enter (Mem.init nd) root 0) (Inv.start h)
    (fun j hj => absurd hj (Nat.not_lt_zero j)) (by omega)
    (by
      show 2 * totalLive nd n + 1 ≤ f + 1
      omega)
  refine ⟨m2, ?_, h2, h4⟩
  rw [← h1]
  rfl

theorem refsIn_eq_zero_of_null (nd : Nat → MXNode) (j id : Nat)
    (h : ∀ k, (nd j).dep_.getD k none = none) : refsIn nd j id = 0 :=
  getD_none_of_count _ h id

/-- At the end of the teardown the owner count of every node has dropped by the
number of handles the destroyed nodes held on it. -/
theorem Inv.final_count {n : Nat} {nd : Nat → MXNode} {root : Nat} {m2 : Mem}
    (hI : Inv n nd root m2 [] []) (hroot : ∀ j, dep m2 root j = none) (id : Nat)
    (hid : id < n) : getCount m2 id + handlesFrom nd m2.destroyed id = (nd id).count := by
  have hc := hI.counts id hid
  simp only [List.count_nil, Nat.cast_zero, add_zero] at hc
  have hsplit := sumTo_split (fun j => refsIn nd j id) n m2.destroyed hI.destroyed_nodup
    hI.destroyed_lt
  have hcur : handles m2.node n id =
      sumTo (fun j => if j ∈ m2.destroyed then 0 else refsIn nd j id) n := by
    unfold handles
    refine sumTo_congr _ _ n (fun j hj => ?_)
    by_cases hD : j ∈ m2.destroyed
    · simp only [hD, if_true]
      apply refsIn_eq_zero_of_null
      intro k
      by_cases hr : j = root
      · rw [hr]; exact hroot k
      · exact hI.destroyed_null j hD hr k
    · simp only [hD, if_false]
      unfold refsIn
      rw [hI.frame j hj hD (List.not_mem_nil _)]
  have h3 : handles nd n id = handles m2.node n id + handlesFrom nd m2.destroyed id := by
    rw [hcur]
    exact hsplit
  omega

/-- C1: on a finite node graph with consistent owner counts the destructor run
on the root returns, destroys no node twice, destroys only nodes reached from
the root, lowers every owner count by the number of handles the destroyed nodes
held, and destroys a node exactly when its owner count has reached zero, that
is exactly when all its owners are destroyed nodes; a destroyed node is left
without any handle and a surviving node keeps its dependency list. -/
theorem dtor_destroys_exactly_unowned (n : Nat) (nd : Nat → MXNode) (root : Nat)
    (h : Consistent n nd root) (fuel : Nat) (hf : 2 * totalLive nd n + 3 ≤ fuel) :
    ∃ m2, dtor fuel 0 (Mem.init nd) root = some m2 ∧
      m2.destroyed.Nodup ∧
      (∀ id ∈ m2.destroyed, Reach nd root id) ∧
      (∀ id, id < n → getCount m2 id = (nd id).count - handlesFrom nd m2.destroyed id) ∧
      (∀ id, id < n → (id ∈ m2.destroyed ↔ getCount m2 id = 0)) ∧
      (∀ id, id < n →
        (id ∈ m2.destroyed ↔ (nd id).count = handlesFrom nd m2.destroyed id)) ∧
      (∀ id ∈ m2.destroyed, ∀ i, dep m2 id i = none) ∧
      (∀ id, id < n → id ∉ m2.destroyed → (m2.node id).dep_ = (nd id).dep_) := by
  obtain ⟨m2, hrun, hI, hroot⟩ := dtor_spec h fuel hf
  refine ⟨m2, hrun, hI.destroyed_nodup, ?_, ?_, hI.destroyed_iff, ?_, ?_,
    fun id hid hD => hI.frame id hid hD (List.not_mem_nil _)⟩
  · intro id hid
    rcases hI.destroyed_sub id hid with e | e
    · rw [e]; exact Reach.refl
    · exact hI.reach id e
  · intro id hid
    have := hI.final_count hroot id hid
    omega
  · intro id hid
    have := hI.final_count hroot id hid
    rw [hI.destroyed_iff id hid]
    omega
  · intro id hid i
    by_cases e : id = root
    · rw [e]; exact hroot i
    · exact hI.destroyed_null id hid e i

theorem dtor_destroys_exactly_unowned_witness :
    Consistent 6 sharedDag 0 ∧ 2 * totalLive sharedDag 6 + 3 ≤ 30 ∧
    ∃ m2, dtor 30 0 (Mem.init sharedDag) 0 = some m2 ∧
      m2.destroyed.Nodup ∧
      (∀ id ∈ m2.destroyed, Reach sharedDag 0 id) ∧
      (∀ id, id < 6 →
        getCount m2 id = (sharedDag id).count - handlesFrom sharedDag m2.destroyed id) ∧
      (∀ id, id < 6 → (id ∈ m2.destroyed ↔ getCount m2 id = 0)) ∧
      (∀ id, id < 6 →
        (id ∈ m2.destroyed ↔ (sharedDag id).count = handlesFrom sharedDag m2.destroyed id)) ∧
      (∀ id ∈ m2.destroyed, ∀ i, dep m2 id i = none) ∧
      (∀ id, id < 6 → id ∉ m2.destroyed → (m2.node id).dep_ = (sharedDag id).dep_) :=
  have hc : Consistent 6 sharedDag 0 :=
    ⟨by decide, by decide, by decide, by decide, by decide⟩
  ⟨hc, by decide, dtor_destroys_exactly_unowned 6 sharedDag 0 hc 30 (by decide)⟩

/-- The teardown of `sharedDag`, evaluated: the root, then nodes 1, 3 and 2 are
destroyed, in this order; nodes 1, 2 and 3 are pushed; the stack holds at most
two items; node 4 keeps its outside owner and node 5 its only owner. -/
theorem sharedDag_run :
    (dtor 30 0 (Mem.init sharedDag) 0).map
        (fun m => (m.destroyed, m.pushed, m.maxStack, m.maxNest,
          getCount m 4, getCount m 5, dep m 4 0)) =
      some ([2, 3, 1, 0], [3, 2, 1], 2, 1, 1, 1, some 5) := by
  rfl

/-- C2: when the handle examined points to a child with more than one owner, in
the scan of the node itself as in the scan of the top of the stack, the child is
neither pushed nor destroyed: the scan goes on to the next handle with the same
stack, the handle is null, the owner count of the child is one less and its
dependency list is untouched. -/
theorem shared_child_not_followed (del : Mem → Nat → Option Mem)
    (drain : Mem → List Nat → Option Mem) (m : Mem) (stack : List Nat) (t i c n : Nat)
    (hd : dep m t i = some c) (hc : 1 < getCount m c) (hne : c ≠ t) :
    ∃ m2, visit del m stack t i = some (m2, none) ∧
      scanTop del t (n + 1) i m stack = scanTop del t n (i + 1) m2 stack ∧
      scanOwn del drain t (n + 1) i m = scanOwn del drain t n (i + 1) m2 ∧
      dep m2 t i = none ∧
      getCount m2 c = getCount m c - 1 ∧
      (m2.node c).dep_ = (m.node c).dep_ ∧
      m2.pushed = m.pushed ∧ m2.destroyed = m.destroyed ∧ m2.maxStack = m.maxStack := by
  have hc1 : getCount m c ≠ 1 := by omega
  have hcl := clearedAt_dropHandle m t i c
  refine ⟨dropHandle m t i c, visit_drop del m stack t i c hd hc1, ?_, ?_, ?_, ?_, ?_,
    rfl, rfl, rfl⟩
  · simp only [scanTop, visit_drop del m stack t i c hd hc1]
  · simp only [scanOwn, visit_drop del m [] t i c hd hc1]
  · rw [hcl.dep_eq]; simp
  · rw [getCount_dropHandle]; simp only [if_true]; omega
  · exact hcl.deps_other c hne

theorem shared_child_not_followed_witness :
    dep (Mem.init sharedDag) 0 2 = some 4 ∧ 1 < getCount (Mem.init sharedDag) 4 ∧ 4 ≠ 0 ∧
    ∃ m2, visit (dtor 5 1) (Mem.init sharedDag) [] 0 2 = some (m2, none) ∧
      scanTop (dtor 5 1) 0 (0 + 1) 2 (Mem.init sharedDag) [] =
        scanTop (dtor 5 1) 0 0 (2 + 1) m2 [] ∧
      scanOwn (dtor 5 1) (drainWith (dtor 5 1) 5) 0 (0 + 1) 2 (Mem.init sharedDag) =
        scanOwn (dtor 5 1) (drainWith (dtor 5 1) 5) 0 0 (2 + 1) m2 ∧
      dep m2 0 2 = none ∧
      getCount m2 4 = getCount (Mem.init sharedDag) 4 - 1 ∧
      (m2.node 4).dep_ = ((Mem.init sharedDag).node 4).dep_ ∧
      m2.pushed = (Mem.init sharedDag).pushed ∧ m2.destroyed = (Mem.init sharedDag).destroyed ∧
      m2.maxStack = (Mem.init sharedDag).maxStack :=
  ⟨by decide, by decide, by decide,
    shared_child_not_followed (dtor 5 1) (drainWith (dtor 5 1) 5) (Mem.init sharedDag) [] 0 2 4 0
      (by decide) (by decide) (by decide)⟩

/-! ## Evaluation of a scatter-assign node -/

theorem length_assignNz {T : Type} [Add T] (add : Bool) (z : List T) (p : Int) (v : T) :
    (assignNz add z p v).length = z.length := by
  unfold assignNz
  split
  · rfl
  · split <;> simp

theorem getElem?_assignNz_ne {T : Type} [Add T] (add : Bool) (z : List T) (p : Int) (v : T)
    (q : Nat) (h : (q : Int) ≠ p) : (assignNz add z p v)[q]? = z[q]? := by
  unfold assignNz
  split
  · rfl
  · split
    · rfl
    · have : p.toNat ≠ q := by omega
      rw [List.getElem?_set_ne this]

theorem getElem?_assignNz_self {T : Type} [Add T] (add : Bool) (z : List T) (p : Int) (v : T)
    (h0 : 0 ≤ p) (old : T) (hold : z[p.toNat]? = some old) :
    (assignNz add z p v)[p.toNat]? = some (if add then old + v else v) := by
  unfold assignNz
  have hp : ¬ p < 0 := by omega
  simp only [hp, if_false, hold]
  have hlt : p.toNat < z.length := by
    rcases List.getElem?_eq_some_iff.mp hold with ⟨h, _⟩
    exact h
  rw [List.getElem?_set_self hlt]

theorem evalGen_length {T : Type} [Add T] (add : Bool) (nz : List Int) :
    ∀ (y x : List T), (SetNonzerosVector.evalGen add nz y x).length = y.length := by
  induction nz with
  | nil => intro y x; simp [SetNonzerosVector.evalGen]
  | cons p nz ih =>
    intro y x
    cases x with
    | nil => simp [SetNonzerosVector.evalGen]
    | cons v x =>
      simp only [SetNonzerosVector.evalGen]
      rw [ih, length_assignNz]

theorem evalGen_untouched {T : Type} [Add T] (add : Bool) (nz : List Int) :
    ∀ (y x : List T) (q : Nat), (q : Int) ∉ nz →
      (SetNonzerosVector.evalGen add nz y x)[q]? = y[q]? := by
  induction nz with
  | nil => intro y x q _; simp [SetNonzerosVector.evalGen]
  | cons p nz ih =>
    intro y x q hq
    cases x with
    | nil => simp [SetNonzerosVector.evalGen]
    | cons v x =>
      simp only [SetNonzerosVector.evalGen]
      rw [ih _ _ q (fun h => hq (List.mem_cons_of_mem _ h))]
      exact getElem?_assignNz_ne add y p v q (fun h => hq (h ▸ List.mem_cons_self _ _))

theorem evalGen_named {T : Type} [Add T] (add : Bool) (nz : List Int) :
    ∀ (y x : List T), nz.Nodup → x.length = nz.length →
      (∀ p ∈ nz, 0 ≤ p ∧ p < y.length) →
      ∀ (k : Nat) (hk : k < nz.length) (hx : k < x.length),
        ∃ old, y[(nz[k]).toNat]? = some old ∧
          (SetNonzerosVector.evalGen add nz y x)[(nz[k]).toNat]? =
            some (if add then old + x[k] else x[k]) := by
  induction nz with
  | nil => intro y x _ _ _ k hk; exact absurd hk (Nat.not_lt_zero k)
  | cons p nz ih =>
    intro y x hnd hlen hr k hk hx
    cases x with
    | nil => exact absurd hx (Nat.not_lt_zero k)
    | cons v x =>
      have hnd2 := List.nodup_cons.mp hnd
      have hp := hr p (List.mem_cons_self _ _)
      have hplt : p.toNat < y.length := by omega
      simp only [SetNonzerosVector.evalGen]
      cases k with
      | zero =>
        refine ⟨y[p.toNat], List.getElem?_eq_getElem hplt, ?_⟩
        simp only [List.getElem_cons_zero]
        have hq : ((p.toNat : Nat) : Int) ∉ nz := by
          rw [Int.toNat_of_nonneg hp.1]; exact hnd2.1
        rw [evalGen_untouched add nz _ x p.toNat hq]
        exact getElem?_assignNz_self add y p v hp.1 _ (List.getElem?_eq_getElem hplt)
      | succ k =>
        simp only [List.length_cons, Nat.add_lt_add_iff_right] at hk hx
        simp only [List.getElem_cons_succ]
        have hmem : nz[k] ∈ nz := List.getElem_mem _
        have hq := hr nz[k] (List.mem_cons_of_mem _ hmem)
        have hne : ((nz[k]).toNat : Int) ≠ p := by
          rw [Int.toNat_of_nonneg hq.1]
          intro e; exact hnd2.1 (e ▸ hmem)
        obtain ⟨old, h1, h2⟩ := ih (assignNz add y p v) x hnd2.2
          (by simpa using hlen)
          (fun q hqm => by
            rw [length_assignNz]
            exact hr q (List.mem_cons_of_mem _ hqm)) k hk hx
        rw [getElem?_assignNz_ne add y p v _ hne] at h1
        exact ⟨old, h1, h2⟩

/-- C3 as stated fails for a selector that names a position twice: with base
`[10,20,30]`, source `[7,8]` and selector `[1,1]` the entry 1 of the result is
8 without accumulate (not `x[0] = 7`) and 35 with accumulate (not
`y[1] + x[0] = 27`). -/
theorem evalGen_repeated_position :
    SetNonzerosVector.evalGen false [1, 1] [10, 20, 30] ([7, 8] : List Int) = [10, 8, 30] ∧
    SetNonzerosVector.evalGen true [1, 1] [10, 20, 30] ([7, 8] : List Int) = [10, 35, 30] ∧
    (¬ ∀ k : Nat, k < 2 →
      (SetNonzerosVector.evalGen false [1, 1] [10, 20, 30] ([7, 8] : List Int))[
        (([1, 1] : List Int).getD k 0).toNat]? = ([7, 8] : List Int)[k]?) ∧
    (¬ ∀ k : Nat, k < 2 →
      (SetNonzerosVector.evalGen true [1, 1] [10, 20, 30] ([7, 8] : List Int))[
        (([1, 1] : List Int).getD k 0).toNat]? =
        some (([10, 20, 30] : List Int).getD (([1, 1] : List Int).getD k 0).toNat 0 +
          ([7, 8] : List Int).getD k 0)) := by
  refine ⟨by decide, by decide, ?_, ?_⟩
  · intro h; exact absurd (h 0 (by decide)) (by decide)
  · intro h; exact absurd (h 0 (by decide)) (by decide)

/-- C3, amended: for a selector `nz` that names no position twice, whose positions
all lie in the base `y` and whose length is that of the source `x`, the result
`z` has the length of `y`, `z[p] = y[p]` at every position `p` not named by
`nz`, and for every `k` the entry `z[nz[k]]` is `x[k]` without accumulate and
`y[nz[k]] + x[k]` with accumulate; for `y = [10,20,30,40,50]`, `x = [7,8]`,
`nz = [1,3]` the result is `[10,7,30,8,50]` and `[10,27,30,48,50]`. -/
theorem evalGen_scatter {T : Type} [Add T] (add : Bool) (y x : List T) (nz : List Int)
    (hnd : nz.Nodup) (hlen : x.length = nz.length)
    (hr : ∀ p ∈ nz, 0 ≤ p ∧ p < y.length) :
    (SetNonzerosVector.evalGen add nz y x).length = y.length ∧
    (∀ q : Nat, (q : Int) ∉ nz → (SetNonzerosVector.evalGen add nz y x)[q]? = y[q]?) ∧
    (∀ (k : Nat) (hk : k < nz.length) (hx : k < x.length),
      ∃ old, y[(nz[k]).toNat]? = some old ∧
        (SetNonzerosVector.evalGen add nz y x)[(nz[k]).toNat]? =
          some (if add then old + x[k] else x[k])) ∧
    SetNonzerosVector.evalGen false [1, 3] [10, 20, 30, 40, 50] ([7, 8] : List Int) =
      [10, 7, 30, 8, 50] ∧
    SetNonzerosVector.evalGen true [1, 3] [10, 20, 30, 40, 50] ([7, 8] : List Int) =
      [10, 27, 30, 48, 50] :=
  ⟨evalGen_length add nz y x, evalGen_untouched add nz y x,
    evalGen_named add nz y x hnd hlen hr, by decide, by decide⟩

theorem evalGen_scatter_witness :
    ([1, 3] : List Int).Nodup ∧ ([7, 8] : List Int).length = ([1, 3] : List Int).length ∧
    (∀ p ∈ ([1, 3] : List Int), 0 ≤ p ∧ p < ([10, 20, 30, 40, 50] : List Int).length) ∧
    (SetNonzerosVector.evalGen true [1, 3] [10, 20, 30, 40, 50] ([7, 8] : List Int)).length =
      ([10, 20, 30, 40, 50] : List Int).length ∧
    (∀ q : Nat, (q : Int) ∉ ([1, 3] : List Int) →
      (SetNonzerosVector.evalGen true [1, 3] [10, 20, 30, 40, 50] ([7, 8] : List Int))[q]? =
        ([10, 20, 30, 40, 50] : List Int)[q]?) ∧
    (∀ (k : Nat) (_hk : k < ([1, 3] : List Int).length) (hx : k < ([7, 8] : List Int).length),
      ∃ old, ([10, 20, 30, 40, 50] : List Int)[(([1, 3] : List Int)[k]).toNat]? = some old ∧
        (SetNonzerosVector.evalGen true [1, 3] [10, 20, 30, 40, 50] ([7, 8] : List Int))[
          (([1, 3] : List Int)[k]).toNat]? =
          some (if true = true then old + ([7, 8] : List Int)[k] else ([7, 8] : List Int)[k])) ∧
    SetNonzerosVector.evalGen false [1, 3] [10, 20, 30, 40, 50] ([7, 8] : List Int) =
      [10, 7, 30, 8, 50] ∧
    SetNonzerosVector.evalGen true [1, 3] [10, 20, 30, 40, 50] ([7, 8] : List Int) =
      [10, 27, 30, 48, 50] :=
  ⟨by decide, by decide, by decide,
    evalGen_scatter true [10, 20, 30, 40, 50] [7, 8] [1, 3] (by decide) (by decide) (by decide)⟩

/-! ## Selectors and the factory functions -/

theorem ceil_div_mul (d : Int) (L : Nat) (hd : 0 < d) : (d * L + d - 1) / d = L := by
  have h1 : d * (L : Int) + d - 1 = (d - 1) + d * L := by ring
  rw [h1, Int.add_mul_ediv_left _ _ (by omega : d ≠ 0)]
  rw [Int.ediv_eq_zero_of_lt (by omega) (by omega)]
  simp

theorem size_ofProgression (a d : Int) (L : Nat) (hd : d ≠ 0) :
    (Slice.mk a (a + d * L) d).size = L := by
  unfold Slice.size
  simp only
  by_cases h : 0 < d
  · simp only [h, if_true]
    have : a + d * L - a + d - 1 = d * L + d - 1 := by ring
    rw [this, ceil_div_mul d L h]
    simp
  · have h2 : d < 0 := by omega
    simp only [h, if_false, h2, if_true]
    have : a - (a + d * L) - d - 1 = (-d) * L + (-d) - 1 := by ring
    rw [this, ceil_div_mul (-d) L (by omega)]
    simp

theorem getAll_ofList (v : List Int) (h : Slice.isSlice v = true) (len : Int) :
    (Slice.ofList v).getAll len = v := by
  match v, h with
  | [], _ => rfl
  | [a], _ =>
    have : (Slice.mk a (a + 1) 1).size = 1 := by
      have := size_ofProgression a 1 1 (by omega)
      simpa using this
    simp only [Slice.ofList, Slice.getAll, this, progression]
    simp [List.range_succ]
  | a :: b :: w, h =>
    simp only [Slice.isSlice, Bool.and_eq_true, decide_eq_true_eq] at h
    have hd : b - a ≠ 0 := by omega
    simp only [Slice.ofList, Slice.getAll]
    rw [size_ofProgression a (b - a) _ hd]
    exact h.2.symm

theorem progression_succ (a d : Int) (n : Nat) :
    progression a d (n + 1) = a :: progression (a + d) d n := by
  unfold progression
  rw [List.range_succ_eq_map, List.map_cons, List.map_map]
  simp only [Nat.cast_zero, mul_zero, add_zero, List.cons.injEq, true_and]
  apply List.map_congr_left
  intro k _
  simp only [Function.comp, Nat.succ_eq_add_one, Nat.cast_add, Nat.cast_one]
  ring

theorem length_progression (a d : Int) (n : Nat) : (progression a d n).length = n := by
  simp [progression]

theorem twoLevel_succ (a d : Int) (ni : Nat) (so : Int) (no : Nat) :
    twoLevel a d ni so (no + 1) = progression a d ni ++ twoLevel (a + so) d ni so no := by
  unfold twoLevel
  rw [List.range_succ_eq_map, List.flatMap_cons, List.flatMap_map]
  simp only [Nat.cast_zero, mul_zero, add_zero]
  congr 1
  apply List.flatMap_congr
  intro b _
  simp only [Nat.succ_eq_add_one, Nat.cast_add, Nat.cast_one]
  congr 1
  ring

theorem length_twoLevel (a d : Int) (ni : Nat) (so : Int) (no : Nat) :
    (twoLevel a d ni so no).length = ni * no := by
  induction no generalizing a with
  | zero => simp [twoLevel]
  | succ no ih =>
    rw [twoLevel_succ, List.length_append, length_progression, ih]
    ring

theorem dropRun_eq (step : Int) :
    ∀ (n : Nat) (next : Int) (v rest : List Int), dropRun next step n v = some rest →
      v = progression next step n ++ rest := by
  intro n
  induction n with
  | zero =>
    intro next v rest h
    simp only [dropRun, Option.some.injEq] at h
    simp [progression, h]
  | succ n ih =>
    intro next v rest h
    cases v with
    | nil => simp [dropRun] at h
    | cons a v =>
      simp only [dropRun] at h
      by_cases e : a = next
      · simp only [e, if_true] at h
        rw [progression_succ, e, List.cons_append, ← ih _ _ _ h]
      · simp [e] at h

theorem dropRun_progression (step : Int) :
    ∀ (n : Nat) (next : Int) (rest : List Int),
      dropRun next step n (progression next step n ++ rest) = some rest := by
  intro n
  induction n with
  | zero => intro next rest; simp [progression, dropRun]
  | succ n ih =>
    intro next rest
    rw [progression_succ, List.cons_append]
    simp only [dropRun, if_true]
    exact ih _ _

theorem dropBlocks_eq (so d : Int) (ni : Nat) :
    ∀ (no : Nat) (start : Int) (v rest : List Int),
      dropBlocks start so d ni no v = some rest → v = twoLevel start d ni so no ++ rest := by
  intro no
  induction no with
  | zero =>
    intro start v rest h
    simp only [dropBlocks, Option.some.injEq] at h
    simp [twoLevel, h]
  | succ no ih =>
    intro start v rest h
    simp only [dropBlocks] at h
    cases h1 : dropRun start d ni v with
    | none => simp [h1] at h
    | some r =>
      simp only [h1] at h
      rw [twoLevel_succ, List.append_assoc, ← ih _ _ _ h]
      exact dropRun_eq d ni start v r h1

theorem dropBlocks_twoLevel (so d : Int) (ni : Nat) :
    ∀ (no : Nat) (start : Int) (rest : List Int),
      dropBlocks start so d ni no (twoLevel start d ni so no ++ rest) = some rest := by
  intro no
  induction no with
  | zero => intro start rest; simp [twoLevel, dropBlocks]
  | succ no ih =>
    intro start rest
    rw [twoLevel_succ, List.append_assoc]
    simp only [dropBlocks, dropRun_progression]
    exact ih _ _

/-- The double slice with inner slice `(a, a + d * ni, d)` and outer slice
`(0, so * no, so)` enumerates the two-level progression. -/
theorem getAll2_twoLevel (a d : Int) (ni : Nat) (so : Int) (no : Nat) (hd : d ≠ 0)
    (hso : so ≠ 0) (len : Int) :
    (Slice.mk a (a + d * ni) d).getAll2 ⟨0, so * no, so⟩ len = twoLevel a d ni so no := by
  have hout : (Slice.mk 0 (so * no) so).size = no := by
    have := size_ofProgression 0 so no hso
    simpa using this
  unfold Slice.getAll2 Slice.getAll
  simp only [hout]
  unfold twoLevel
  unfold progression
  rw [List.flatMap_map]
  apply List.flatMap_congr
  intro b _
  have hin : (Slice.mk (0 + so * (b : Int) + a) (0 + so * (b : Int) + (a + d * ni)) d).size
      = ni := by
    have e : (0 + so * (b : Int) + (a + d * ni)) = (0 + so * (b : Int) + a) + d * ni := by ring
    rw [e]
    exact size_ofProgression _ d ni hd
  simp only [hin]
  apply List.map_congr_left
  intro k _
  ring

theorem getAll2_ofList2 (v : List Int) (h : Slice.isSlice2 v = true) (len : Int) :
    (Slice.ofList2 v).1.getAll2 (Slice.ofList2 v).2 len = v := by
  match v, h with
  | a :: b :: w, h =>
    simp only [Slice.isSlice2, Bool.and_eq_true, decide_eq_true_eq] at h
    obtain ⟨⟨hd, hso⟩, hblocks⟩ := h
    have hv := dropBlocks_eq _ _ _ _ _ _ _ hblocks
    rw [List.append_nil] at hv
    simp only [Slice.ofList2]
    rw [getAll2_twoLevel _ _ _ _ _ (by omega) (by omega)]
    exact hv.symm

theorem getD_progression (a d : Int) (n k : Nat) (x : Int) (h : k < n) :
    (progression a d n).getD k x = a + d * k := by
  unfold progression
  rw [List.getD_eq_getElem _ _ (by simpa using h)]
  simp

theorem leadRun_progression_append (d : Int) :
    ∀ (n : Nat) (next : Int) (rest : List Int),
      leadRun next d (progression next d n ++ rest) = n + leadRun (next + d * n) d rest := by
  intro n
  induction n with
  | zero => intro next rest; simp [progression]
  | succ n ih =>
    intro next rest
    rw [progression_succ, List.cons_append]
    simp only [leadRun, if_true]
    rw [ih]
    have e : next + d + d * (n : Int) = next + d * ((n + 1 : Nat) : Int) := by
      push_cast; ring
    rw [e]
    omega

theorem twoLevel_two (a d : Int) (ni : Nat) (so : Int) (no : Nat) :
    twoLevel a d (ni + 2) so (no + 1) =
      a :: (a + d) :: (progression (a + d + d) d ni ++ twoLevel (a + so) d (ni + 2) so no) := by
  rw [twoLevel_succ, progression_succ, progression_succ]
  rfl

/-- What the structural tests and the constructors compute on a two-level
progression of at least two runs of at least two positions, when the second run
does not continue the first. -/
theorem classify_twoLevel (a d : Int) (ni : Nat) (so : Int) (no : Nat) (hd : d ≠ 0)
    (hso : so ≠ 0) (hrun : so ≠ d * ((ni + 2 : Nat) : Int)) :
    Slice.isSlice (twoLevel a d (ni + 2) so (no + 2)) = false ∧
    Slice.isSlice2 (twoLevel a d (ni + 2) so (no + 2)) = true ∧
    Slice.ofList2 (twoLevel a d (ni + 2) so (no + 2)) =
      (⟨a, a + d * ((ni + 2 : Nat) : Int), d⟩, ⟨0, so * ((no + 2 : Nat) : Int), so⟩) := by
  have hlen : (twoLevel a d (ni + 2) so (no + 2)).length = (ni + 2) * (no + 2) :=
    length_twoLevel _ _ _ _ _
  -- the leading run has `ni + 2` positions
  have hlead : leadRun a d (twoLevel a d (ni + 2) so (no + 2)) = ni + 2 := by
    rw [twoLevel_succ, leadRun_progression_append, twoLevel_succ, progression_succ,
      List.cons_append]
    have : ¬ a + so = a + d * ((ni + 2 : Nat) : Int) := by omega
    simp only [leadRun, this, if_false]
  -- the position after it is the start of the second run
  have hnext : ∀ x, (twoLevel a d (ni + 2) so (no + 2)).getD (ni + 2) x = a + so := by
    intro x
    rw [twoLevel_succ, List.getD_append_right _ _ _ _ (by rw [length_progression]),
      length_progression, Nat.sub_self, twoLevel_succ, progression_succ]
    rfl
  have hdiv : (ni + 2) * (no + 2) / (ni + 2) = no + 2 :=
    Nat.mul_div_cancel_left _ (by omega)
  have hblocks : dropBlocks a so d (ni + 2) (no + 2) (twoLevel a d (ni + 2) so (no + 2)) =
      some [] := by
    have := dropBlocks_twoLevel so d (ni + 2) (no + 2) a []
    rwa [List.append_nil] at this
  have hv := twoLevel_two a d ni so (no + 1)
  rw [hv] at hlen hlead hnext hblocks
  rw [hv]
  have hba : a + d - a = d := by ring
  refine ⟨?_, ?_, ?_⟩
  · -- not one progression: position `ni + 2` is not on it
    simp only [Slice.isSlice, hba]
    rw [Bool.and_eq_false_iff]
    right
    rw [decide_eq_false_iff_not]
    intro h
    have h1 := hnext a
    rw [h, hlen] at h1
    rw [getD_progression _ _ _ _ _ (by nlinarith)] at h1
    push_cast at h1 hrun
    omega
  · simp only [Slice.isSlice2, hba, hlead, hnext, hlen, hdiv, Bool.and_eq_true,
      decide_eq_true_eq]
    refine ⟨⟨by omega, by omega⟩, ?_⟩
    have e : a + so - a = so := by ring
    rw [e]
    exact hblocks
  · simp only [Slice.ofList2, hba, hlead, hnext, hlen, hdiv]
    have e : a + so - a = so := by ring
    rw [e]

theorem classify_progression (a d : Int) (n : Nat) (hd : d ≠ 0) :
    Slice.isSlice (progression a d (n + 2)) = true ∧
    Slice.ofList (progression a d (n + 2)) = ⟨a, a + d * ((n + 2 : Nat) : Int), d⟩ := by
  have hlen : (progression a d (n + 2)).length = n + 2 := length_progression _ _ _
  have hv : progression a d (n + 2) = a :: (a + d) :: progression (a + d + d) d n := by
    rw [progression_succ, progression_succ]
  have hba : a + d - a = d := by ring
  constructor
  · have h2 : a :: (a + d) :: progression (a + d + d) d n =
        progression a d (a :: (a + d) :: progression (a + d + d) d n).length := by
      rw [← hv, hlen]
    rw [hv]
    simp only [Slice.isSlice, hba, Bool.and_eq_true, decide_eq_true_eq]
    exact ⟨by omega, h2⟩
  · rw [hv] at hlen
    rw [hv]
    simp only [Slice.ofList, hba, hlen]

theorem map_map_except {α β γ : Type} (e : Except String α) (f : α → β) (g : β → γ) :
    (e.map f).map g = e.map (fun a => g (f a)) := by
  cases e <;> rfl

theorem getSetNonzeros_eq (E : External) (self y : Expr) (nz : List Int) (h : nz ≠ []) :
    getSetNonzeros E self y nz =
      (E.ctor false y self (seen nz)).map (fun _ => E.simplify (built false self y nz)) := by
  have hl : ¬ nz.length = 0 := fun e => h (List.length_eq_zero.mp e)
  unfold getSetNonzeros built seen
  simp only [hl, if_false]
  cases Slice.isSlice nz <;> cases Slice.isSlice2 nz <;> simp [map_map_except]

theorem getAddNonzeros_eq (E : External) (self y : Expr) (nz : List Int) (h : nz ≠ []) :
    getAddNonzeros E self y nz =
      (E.ctor true y self (seen nz)).map (fun _ => E.simplify (built true self y nz)) := by
  have hl : ¬ nz.length = 0 := fun e => h (List.length_eq_zero.mp e)
  unfold getAddNonzeros built seen
  simp only [hl, if_false]
  cases Slice.isSlice nz <;> cases Slice.isSlice2 nz <;> simp [map_map_except]

theorem getAll_built (Add : Bool) (self y : Expr) (nz : List Int) :
    (built Add self y nz).getAll = nz := by
  unfold built
  cases h1 : Slice.isSlice nz with
  | true =>
    simp only [if_true, Expr.getAll]
    exact getAll_ofList nz h1 _
  | false =>
    cases h2 : Slice.isSlice2 nz with
    | true =>
      simp only [Bool.false_eq_true, if_true, if_false, Expr.getAll]
      exact getAll2_ofList2 nz h2 _
    | false => simp only [Bool.false_eq_true, if_false, Expr.getAll]

/-- C4: for every non-empty position list `nz` the node that `getSetNonzeros` and
`getAddNonzeros` build from it, in the Slice, double-slice or Vector form and
before simplification, has `getAll() = nz`; the factories hand exactly that node
to the simplifier, and return it as it is when nothing is rejected and nothing
is simplified.  The compact forms are really chosen: a progression with a step
other than zero gets the Slice form with its triple, a two-level progression
whose second run does not continue the first gets the double-slice form with
its inner and outer triple. -/
theorem factory_getAll_roundtrip (E : External) (self y : Expr) (nz : List Int)
    (h : nz ≠ []) :
    (built false self y nz).getAll = nz ∧ (built true self y nz).getAll = nz ∧
    getSetNonzeros E self y nz =
      (E.ctor false y self (seen nz)).map (fun _ => E.simplify (built false self y nz)) ∧
    getAddNonzeros E self y nz =
      (E.ctor true y self (seen nz)).map (fun _ => E.simplify (built true self y nz)) ∧
    getSetNonzeros External.plain self y nz = .ok (built false self y nz) ∧
    getAddNonzeros External.plain self y nz = .ok (built true self y nz) ∧
    (∀ (Add : Bool) (a d : Int) (n : Nat), d ≠ 0 →
      built Add self y (progression a d (n + 2)) =
        Expr.SetNonzerosSlice Add y self ⟨a, a + d * ((n + 2 : Nat) : Int), d⟩) ∧
    (∀ (Add : Bool) (a d : Int) (ni : Nat) (so : Int) (no : Nat), d ≠ 0 → so ≠ 0 →
      so ≠ d * ((ni + 2 : Nat) : Int) →
      built Add self y (twoLevel a d (ni + 2) so (no + 2)) =
        Expr.SetNonzerosSlice2 Add y self ⟨a, a + d * ((ni + 2 : Nat) : Int), d⟩
          ⟨0, so * ((no + 2 : Nat) : Int), so⟩) := by
  refine ⟨getAll_built false self y nz, getAll_built true self y nz,
    getSetNonzeros_eq E self y nz h, getAddNonzeros_eq E self y nz h,
    getSetNonzeros_eq External.plain self y nz h, getAddNonzeros_eq External.plain self y nz h,
    ?_, ?_⟩
  · intro Add a d n hd
    obtain ⟨h1, h2⟩ := classify_progression a d n hd
    unfold built
    rw [h1, h2]
    rfl
  · intro Add a d ni so no hd hso hrun
    obtain ⟨h1, h2, h3⟩ := classify_twoLevel a d ni so no hd hso hrun
    unfold built
    rw [h1, h2, h3]
    rfl

theorem factory_getAll_roundtrip_witness :
    ([1, 3, 11, 13] : List Int) ≠ [] ∧
    built false (Expr.other 1 4) (Expr.other 0 20) [1, 3, 11, 13] =
      Expr.SetNonzerosSlice2 false (Expr.other 0 20) (Expr.other 1 4) ⟨1, 5, 2⟩ ⟨0, 20, 10⟩ ∧
    (built false (Expr.other 1 4) (Expr.other 0 20) [1, 3, 11, 13]).getAll = [1, 3, 11, 13] ∧
    (built true (Expr.other 1 4) (Expr.other 0 20) [1, 3, 11, 13]).getAll = [1, 3, 11, 13] ∧
    getSetNonzeros External.plain (Expr.other 1 4) (Expr.other 0 20) [1, 3, 11, 13] =
      .ok (built false (Expr.other 1 4) (Expr.other 0 20) [1, 3, 11, 13]) ∧
    getAddNonzeros External.plain (Expr.other 1 4) (Expr.other 0 20) [1, 3, 11, 13] =
      .ok (built true (Expr.other 1 4) (Expr.other 0 20) [1, 3, 11, 13]) :=
  have w := factory_getAll_roundtrip External.plain (Expr.other 1 4) (Expr.other 0 20)
    [1, 3, 11, 13] (by decide)
  ⟨by decide, rfl, w.1, w.2.1, w.2.2.2.2.1, w.2.2.2.2.2.1⟩

/-- C5 as stated fails: with a base `y` of 5 nonzeros and a source `x` of 2
nonzeros, the position list `[7, 9]` (out of the range of `y`) and the position
list `[0, 2, 4]` (of a length other than the nonzero count of `x`) both get a
node; and whatever the constructors outside the sources reject, they get a node
as soon as the valid list `[1, 3]` gets one. -/
theorem factory_accepts_invalid_selector :
    getSetNonzeros External.plain (Expr.other 1 2) (Expr.other 0 5) [7, 9] =
      .ok (Expr.SetNonzerosSlice false (Expr.other 0 5) (Expr.other 1 2) ⟨7, 11, 2⟩) ∧
    getAddNonzeros External.plain (Expr.other 1 2) (Expr.other 0 5) [0, 2, 4] =
      .ok (Expr.SetNonzerosSlice true (Expr.other 0 5) (Expr.other 1 2) ⟨0, 6, 2⟩) ∧
    (∀ E : External,
      (∃ node, getSetNonzeros E (Expr.other 1 2) (Expr.other 0 5) [1, 3] = .ok node) →
      (∃ node, getSetNonzeros E (Expr.other 1 2) (Expr.other 0 5) [7, 9] = .ok node) ∧
      (∃ node, getSetNonzeros E (Expr.other 1 2) (Expr.other 0 5) [0, 2, 4] = .ok node)) ∧
    (∀ E : External,
      (∃ node, getAddNonzeros E (Expr.other 1 2) (Expr.other 0 5) [1, 3] = .ok node) →
      (∃ node, getAddNonzeros E (Expr.other 1 2) (Expr.other 0 5) [7, 9] = .ok node) ∧
      (∃ node, getAddNonzeros E (Expr.other 1 2) (Expr.other 0 5) [0, 2, 4] = .ok node)) := by
  have s1 : seen [1, 3] = none := by decide
  have s2 : seen [7, 9] = none := by decide
  have s3 : seen [0, 2, 4] = none := by decide
  refine ⟨rfl, rfl, ?_, ?_⟩
  · intro E
    rw [getSetNonzeros_eq E _ _ [1, 3] (by decide), getSetNonzeros_eq E _ _ [7, 9] (by decide),
      getSetNonzeros_eq E _ _ [0, 2, 4] (by decide), s1, s2, s3]
    cases E.ctor false (Expr.other 0 5) (Expr.other 1 2) none with
    | error e => rintro ⟨node, hn⟩; cases hn
    | ok u => intro _; exact ⟨⟨_, rfl⟩, ⟨_, rfl⟩⟩
  · intro E
    rw [getAddNonzeros_eq E _ _ [1, 3] (by decide), getAddNonzeros_eq E _ _ [7, 9] (by decide),
      getAddNonzeros_eq E _ _ [0, 2, 4] (by decide), s1, s2, s3]
    cases E.ctor true (Expr.other 0 5) (Expr.other 1 2) none with
    | error e => rintro ⟨node, hn⟩; cases hn
    | ok u => intro _; exact ⟨⟨_, rfl⟩, ⟨_, rfl⟩⟩

/-- C5, amended: for a non-empty position list `nz` of Slice or double-slice
shape `getSetNonzeros` and `getAddNonzeros` make no check that involves `nz`:
they fail only if the base class constructor rejects the operands `y` and `x`,
and otherwise return the simplified node, whatever the range of the positions
and the length of `nz`. -/
theorem factory_slice_unchecked (E : External) (self y : Expr) (nz : List Int)
    (h : nz ≠ []) (hs : Slice.isSlice nz = true ∨ Slice.isSlice2 nz = true) :
    getSetNonzeros E self y nz =
      (E.ctor false y self none).map (fun _ => E.simplify (built false self y nz)) ∧
    getAddNonzeros E self y nz =
      (E.ctor true y self none).map (fun _ => E.simplify (built true self y nz)) := by
  have hseen : seen nz = none := by
    unfold seen
    rcases hs with h1 | h1
    · simp [h1]
    · simp [h1]
  rw [getSetNonzeros_eq E self y nz h, getAddNonzeros_eq E self y nz h, hseen]
  exact ⟨rfl, rfl⟩

theorem factory_slice_unchecked_witness :
    ([7, 9] : List Int) ≠ [] ∧
    (Slice.isSlice [7, 9] = true ∨ Slice.isSlice2 [7, 9] = true) ∧
    getSetNonzeros External.plain (Expr.other 1 2) (Expr.other 0 5) [7, 9] =
      (External.plain.ctor false (Expr.other 0 5) (Expr.other 1 2) none).map
        (fun _ => External.plain.simplify
          (built false (Expr.other 1 2) (Expr.other 0 5) [7, 9])) ∧
    getAddNonzeros External.plain (Expr.other 1 2) (Expr.other 0 5) [7, 9] =
      (External.plain.ctor true (Expr.other 0 5) (Expr.other 1 2) none).map
        (fun _ => External.plain.simplify
          (built true (Expr.other 1 2) (Expr.other 0 5) [7, 9])) :=
  ⟨by decide, by decide,
    factory_slice_unchecked External.plain (Expr.other 1 2) (Expr.other 0 5) [7, 9]
      (by decide) (by decide)⟩

/-- C6: for a non-empty position list `nz` both factories pick the same form:
the Slice form when `Slice::isSlice(nz)` holds, else the double-slice form when
`Slice::isSlice2(nz)` holds, else the Vector form that stores `nz` itself; the
first operand of the node is the base `y`, the second is the source, and the
flag `Add` is false for `getSetNonzeros` and true for `getAddNonzeros`. -/
theorem factory_same_representation (E : External) (self y : Expr) (nz : List Int)
    (h : nz ≠ []) :
    (Slice.isSlice nz = true →
      getSetNonzeros E self y nz = (E.ctor false y self none).map
        (fun _ => E.simplify (Expr.SetNonzerosSlice false y self (Slice.ofList nz))) ∧
      getAddNonzeros E self y nz = (E.ctor true y self none).map
        (fun _ => E.simplify (Expr.SetNonzerosSlice true y self (Slice.ofList nz)))) ∧
    (Slice.isSlice nz = false → Slice.isSlice2 nz = true →
      getSetNonzeros E self y nz = (E.ctor false y self none).map
        (fun _ => E.simplify
          (Expr.SetNonzerosSlice2 false y self (Slice.ofList2 nz).1 (Slice.ofList2 nz).2)) ∧
      getAddNonzeros E self y nz = (E.ctor true y self none).map
        (fun _ => E.simplify
          (Expr.SetNonzerosSlice2 true y self (Slice.ofList2 nz).1 (Slice.ofList2 nz).2))) ∧
    (Slice.isSlice nz = false → Slice.isSlice2 nz = false →
      getSetNonzeros E self y nz = (E.ctor false y self (some nz)).map
        (fun _ => E.simplify (Expr.SetNonzerosVector false y self nz)) ∧
      getAddNonzeros E self y nz = (E.ctor true y self (some nz)).map
        (fun _ => E.simplify (Expr.SetNonzerosVector true y self nz))) := by
  rw [getSetNonzeros_eq E self y nz h, getAddNonzeros_eq E self y nz h]
  unfold built seen
  refine ⟨?_, ?_, ?_⟩
  · intro h1; simp [h1]
  · intro h1 h2; simp [h1, h2]
  · intro h1 h2; simp [h1, h2]

theorem factory_same_representation_witness :
    ([1, 3, 4] : List Int) ≠ [] ∧ Slice.isSlice [1, 3, 4] = false ∧
    Slice.isSlice2 [1, 3, 4] = false ∧
    getSetNonzeros External.plain (Expr.other 1 3) (Expr.other 0 5) [1, 3, 4] =
      .ok (Expr.SetNonzerosVector false (Expr.other 0 5) (Expr.other 1 3) [1, 3, 4]) ∧
    getAddNonzeros External.plain (Expr.other 1 3) (Expr.other 0 5) [1, 3, 4] =
      .ok (Expr.SetNonzerosVector true (Expr.other 0 5) (Expr.other 1 3) [1, 3, 4]) :=
  ⟨by decide, by decide, by decide,
    (factory_same_representation External.plain (Expr.other 1 3) (Expr.other 0 5) [1, 3, 4]
      (by decide)).2.2 (by decide) (by decide)⟩

/-- C10: for an empty position list `getSetNonzeros` and `getAddNonzeros` return
the base handle `y` itself, whatever the constructors and the simplifier do: no
node is built and the simplifier is not called. -/
theorem factory_empty_returns_base (E : External) (self y : Expr) :
    getSetNonzeros E self y [] = .ok y ∧ getAddNonzeros E self y [] = .ok y :=
  ⟨rfl, rfl⟩

/-! ## The chain -/

theorem deps_chain (N j : Nat) :
    (chain N j).dep_ = if j < N then [some (j + 1)] else [] := by
  unfold chain
  by_cases h0 : j = 0
  · subst h0
    by_cases hN : N = 0
    · simp [hN]
    · have : 0 < N := Nat.pos_of_ne_zero hN
      simp [hN, this]
  · simp only [h0, if_false]
    by_cases h1 : j < N
    · simp [h1]
    · simp only [h1, if_false]
      split <;> rfl

theorem count_chain (N j : Nat) :
    (chain N j).count = if 1 ≤ j ∧ j ≤ N then 1 else 0 := by
  unfold chain
  by_cases h0 : j = 0
  · subst h0; simp
  · simp only [h0, if_false]
    by_cases h1 : j < N
    · have : 1 ≤ j ∧ j ≤ N := ⟨by omega, by omega⟩
      simp [h1, this]
    · simp only [h1, if_false]
      by_cases h2 : j = N
      · have : 1 ≤ j ∧ j ≤ N := ⟨by omega, by omega⟩
        simp only [h2, if_true] at this ⊢
        simp [this]
      · have : ¬ (1 ≤ j ∧ j ≤ N) := by omega
        simp [h2, this]

theorem refsIn_chain (N j id : Nat) :
    refsIn (chain N) j id = if j < N ∧ id = j + 1 then 1 else 0 := by
  unfold refsIn
  rw [deps_chain]
  by_cases h1 : j < N
  · by_cases h2 : id = j + 1
    · simp [h1, h2]
    · have : ¬ (j + 1 = id) := fun e => h2 e.symm
      simp [h1, h2, this]
  · simp [h1]

theorem handles_chain (N id : Nat) :
    ∀ n, handles (chain N) n id = if 1 ≤ id ∧ id ≤ N ∧ id ≤ n then 1 else 0 := by
  intro n
  unfold handles
  induction n with
  | zero =>
    have : ¬ (1 ≤ id ∧ id ≤ N ∧ id ≤ 0) := by omega
    rw [if_neg this]
    rfl
  | succ n ih =>
    simp only [sumTo]
    rw [ih, refsIn_chain]
    split_ifs <;> omega

theorem totalLive_chain (N : Nat) : ∀ n, totalLive (chain N) n = min n N := by
  intro n
  unfold totalLive
  induction n with
  | zero => simp [sumTo]
  | succ n ih =>
    simp only [sumTo, ih, liveIn, deps_chain]
    by_cases h : n < N
    · simp [h]; omega
    · simp [h]; omega

theorem consistent_chain (N : Nat) : Consistent (N + 1) (chain N) 0 := by
  refine ⟨by omega, ?_, ?_, ?_, ?_⟩
  · intro j _ h hh c hc
    rw [deps_chain] at hh
    by_cases hj : j < N
    · simp only [hj, if_true, List.mem_singleton] at hh
      rw [hh] at hc
      have : c = j + 1 := (Option.mem_some_iff.mp hc).symm
      omega
    · simp [hj] at hh
  · rw [count_chain]; simp
  · intro id hid hne
    rw [count_chain]
    have : 1 ≤ id ∧ id ≤ N := by omega
    simp [this]
  · intro id _
    rw [handles_chain, count_chain]
    by_cases h : 1 ≤ id ∧ id ≤ N
    · have h2 : 1 ≤ id ∧ id ≤ N ∧ id ≤ N + 1 := by omega
      simp [h, h2]
    · have h2 : ¬ (1 ≤ id ∧ id ≤ N ∧ id ≤ N + 1) := by omega
      simp [h, h2]

theorem levelled_chain (N : Nat) : Levelled (chain N) 0 (fun k => k) := by
  refine ⟨rfl, ?_⟩
  intro j c hc
  rw [deps_chain] at hc
  by_cases hj : j < N
  · simp only [hj, if_true, List.mem_singleton, Option.some.injEq] at hc
    simp only; omega
  · simp [hj] at hc

theorem le_sum_of_mem (l : List Nat) (f : Nat → Nat) (a : Nat) (h : a ∈ l) :
    f a ≤ (l.map f).sum := by
  induction l with
  | nil => exact absurd h (List.not_mem_nil a)
  | cons b l ih =>
    simp only [List.map_cons, List.sum_cons]
    rcases List.mem_cons.mp h with e | e
    · rw [e]; omega
    · have := ih e; omega

/-- The teardown of a chain of `N` nodes below the root: it returns, destroys
the whole chain, the deletion stack reaches exactly `N` items and destructor
calls nest at most one level deep. -/
theorem chain_run (N fuel : Nat) (hf : 2 * N + 3 ≤ fuel) :
    ∃ m2, dtor fuel 0 (Mem.init (chain N)) 0 = some m2 ∧ m2.maxStack = N ∧
      m2.maxStack ≤ m2.pushed.length ∧ m2.maxNest ≤ 1 ∧
      (∀ k, k ≤ N → k ∈ m2.destroyed) := by
  have hc := consistent_chain N
  have htl : totalLive (chain N) (N + 1) = N := by rw [totalLive_chain]; omega
  obtain ⟨m2, hrun, hI, hroot⟩ := dtor_spec hc fuel (by rw [htl]; exact hf)
  have hall : ∀ k, k ≤ N → k ∈ m2.destroyed := by
    intro k
    induction k with
    | zero => intro _; exact hI.root_destroyed
    | succ k ih =>
      intro hk
      have hkD := ih (by omega)
      have hfin := hI.final_count hroot (k + 1) (by omega)
      have hge : refsIn (chain N) k (k + 1) ≤ handlesFrom (chain N) m2.destroyed (k + 1) :=
        le_sum_of_mem m2.destroyed (fun j => refsIn (chain N) j (k + 1)) k hkD
      rw [refsIn_chain] at hge
      have h1 : k < N ∧ k + 1 = k + 1 := ⟨by omega, rfl⟩
      simp only [h1, and_self, if_true] at hge
      rw [count_chain] at hfin
      have h2 : 1 ≤ k + 1 ∧ k + 1 ≤ N := ⟨by omega, hk⟩
      simp only [h2, and_self, if_true] at hfin
      have hcnt := hI.counts (k + 1) (by omega)
      simp only [List.count_nil, Nat.cast_zero, add_zero] at hcnt
      have hext := hI.ext_nonneg (k + 1) (by omega)
      exact (hI.destroyed_iff (k + 1) (by omega)).mpr (by omega)
  refine ⟨m2, hrun, ?_, hI.maxStack_le, hI.nest, hall⟩
  apply Nat.le_antisymm
  · -- at most N nodes can be pushed
    have hsub : m2.pushed ⊆ List.range' 1 N := by
      intro c hcm
      have hlt : c < N + 1 := by
        rcases hI.pushed_sub c hcm with h | h
        · exact absurd h (List.not_mem_nil c)
        · exact hI.destroyed_lt c h
      have hne : c ≠ 0 := fun e => hI.root_not_pushed (e ▸ hcm)
      rw [List.mem_range'_1]
      omega
    have hlen := (List.subperm_of_subset hI.pushed_nodup hsub).length_le
    have := hI.maxStack_le
    simp only [List.length_range'] at hlen
    omega
  · -- the last node of the chain was pushed, at level N
    by_cases hN : N = 0
    · omega
    · have hND := hall N (Nat.le_refl N)
      rcases hI.destroyed_sub N hND with e | e
      · exact absurd e hN
      · exact hI.level_pushed (fun k => k) (levelled_chain N) N e

/-- C7 as stated fails: on the chain of `N` uniquely owned nodes the deletion
stack reaches `N` items (2 items for `N = 2`, 6 items for `N = 6`), so no bound
that is independent of `N` holds. -/
theorem stack_size_grows_with_chain :
    (dtor 7 0 (Mem.init (chain 2)) 0).map (fun m => (m.pushed, m.maxStack)) =
      some ([2, 1], 2) ∧
    (dtor 15 0 (Mem.init (chain 6)) 0).map (fun m => (m.pushed, m.maxStack)) =
      some ([6, 5, 4, 3, 2, 1], 6) ∧
    ¬ ∃ B : Nat, ∀ (N : Nat) (m2 : Mem),
      dtor (2 * N + 3) 0 (Mem.init (chain N)) 0 = some m2 → m2.maxStack < B := by
  refine ⟨rfl, rfl, ?_⟩
  rintro ⟨B, hB⟩
  obtain ⟨m2, hrun, hmax, _⟩ := chain_run B (2 * B + 3) (Nat.le_refl _)
  have := hB B m2 hrun
  omega

/-- C7, amended: the teardown of a chain of `N` uniquely owned nodes, each
depending only on the previous, returns; the deletion stack reaches exactly `N`
items, which is at most the number of nodes pushed; what is bounded
independently of `N` is the nesting of destructor calls, at most one. -/
theorem stack_size_on_chain (N extra : Nat) :
    ∃ m2, dtor (2 * N + 3 + extra) 0 (Mem.init (chain N)) 0 = some m2 ∧ m2.maxStack = N ∧
      m2.maxStack ≤ m2.pushed.length ∧ m2.maxNest ≤ 1 := by
  obtain ⟨m2, hrun, h1, h2, h3, _⟩ := chain_run N (2 * N + 3 + extra) (by omega)
  exact ⟨m2, hrun, h1, h2, h3⟩

/-! ## One iteration of the drain loop, in any memory -/

theorem ndep_dropHandle (m : Mem) (t i c j : Nat) : ndep (dropHandle m t i c) j = ndep m j := by
  simp [dropHandle]

/-- The scan of the top of the stack, whatever the memory: either it pushes
nothing and ends with every handle of `t` null, or it pushes exactly one child
`c`, behind a handle that was not null and is null afterwards. -/
theorem scanTop_cases (del : Mem → Nat → Option Mem) (t : Nat) (stack : List Nat) :
    ∀ (k i : Nat) (m : Mem), (∀ j, j < i → dep m t j = none) → i + k = ndep m t →
      (∃ ms, scanTop del t k i m stack = some (ms, stack, false) ∧
        (∀ j, dep ms t j = none) ∧ ms.pushed = m.pushed) ∨
      (∃ ms c j, scanTop del t k i m stack = some (ms, c :: stack, true) ∧
        dep m t j = some c ∧ dep ms t j = none ∧ ms.pushed = c :: m.pushed) := by
  intro k
  induction k with
  | zero =>
    intro i m hpre hik
    refine Or.inl ⟨m, rfl, ?_, rfl⟩
    intro j
    by_cases hj : j < i
    · exact hpre j hj
    · exact dep_eq_none_of_le m t j (by omega)
  | succ k ih =>
    intro i m hpre hik
    cases hd : dep m t i with
    | none =>
      have h := ih (i + 1) m
        (fun j hj => by
          by_cases e : j = i
          · rw [e]; exact hd
          · exact hpre j (by omega))
        (by omega)
      simp only [scanTop, visit_null del m stack t i hd]
      exact h
    | some c =>
      by_cases hc : getCount m c = 1
      · refine Or.inr ⟨moveToStack m stack t i c, c, i, ?_, hd, ?_, rfl⟩
        · simp only [scanTop, visit_move del m stack t i c hd hc]
        · rw [(clearedAt_moveToStack m stack t i c).dep_eq]; simp
      · have hcl := clearedAt_dropHandle m t i c
        have h := ih (i + 1) (dropHandle m t i c)
          (fun j hj => by
            rw [hcl.dep_eq]
            by_cases e : j = i
            · simp [e]
            · simp only [e, and_false, if_false]
              exact hpre j (by omega))
          (by rw [ndep_dropHandle]; omega)
        simp only [scanTop, visit_drop del m stack t i c hd hc]
        rcases h with ⟨ms, h1, h2, h3⟩ | ⟨ms, c2, j, h1, h2, h3, h4⟩
        · exact Or.inl ⟨ms, h1, h2, h3⟩
        · refine Or.inr ⟨ms, c2, j, h1, ?_, h3, h4⟩
          rw [hcl.dep_eq] at h2
          by_cases e : t = t ∧ j = i
          · rw [if_pos e] at h2; cases h2
          · rw [if_neg e] at h2; exact h2

/-- One iteration of the drain loop, whatever the memory: either nothing is
pushed, every handle of the top `t` is null and `t` is popped (both the handle
of the stack and the local copy are released), or exactly one child is pushed
and nothing is popped (only the local copy is released). -/
theorem drainIter_cases (del : Mem → Nat → Option Mem) (m : Mem) (t : Nat) (rest : List Nat) :
    (∃ ms, scanTop del t (ndep m t) 0 (addCount m t 1) (t :: rest) =
          some (ms, t :: rest, false) ∧
        (∀ j, dep ms t j = none) ∧ ms.pushed = m.pushed ∧
        drainIter del m t rest =
          (release del ms t).bind (fun m3 => (release del m3 t).map (fun m4 => (m4, rest)))) ∨
    (∃ ms c j, scanTop del t (ndep m t) 0 (addCount m t 1) (t :: rest) =
          some (ms, c :: t :: rest, true) ∧
        dep m t j = some c ∧ dep ms t j = none ∧ ms.pushed = c :: m.pushed ∧
        drainIter del m t rest = (release del ms t).map (fun m3 => (m3, c :: t :: rest))) := by
  have h := scanTop_cases del t (t :: rest) (ndep m t) 0 (addCount m t 1)
    (fun j hj => absurd hj (Nat.not_lt_zero j)) (by simp)
  rcases h with ⟨ms, h1, h2, h3⟩ | ⟨ms, c, j, h1, h2, h3, h4⟩
  · refine Or.inl ⟨ms, h1, h2, h3, ?_⟩
    simp only [drainIter, ndep_addCount, h1]
    cases release del ms t with
    | none => rfl
    | some m3 =>
      cases h5 : release del m3 t with
      | none => simp [h5]
      | some m4 => simp [h5]
  · refine Or.inr ⟨ms, c, j, h1, by simpa using h2, h3, h4, ?_⟩
    simp only [drainIter, ndep_addCount, h1]
    cases release del ms t with
    | none => rfl
    | some m3 => rfl

/-- C8: an iteration of the drain loop either pushes exactly one child and pops
nothing, or pushes nothing and pops the top, and then every dependency handle
of the popped item is null; the destructor of a node whose handles are all null
follows no child and returns at once; so on every consistent graph, and on the
chain of every length, destructor calls nest at most one level deep. -/
theorem drain_nesting_depth (n : Nat) (nd : Nat → MXNode) (root : Nat)
    (h : Consistent n nd root) (fuel : Nat) (hf : 2 * totalLive nd n + 3 ≤ fuel) :
    (∀ (del : Mem → Nat → Option Mem) (m : Mem) (t : Nat) (rest : List Nat),
      (∃ ms, scanTop del t (ndep m t) 0 (addCount m t 1) (t :: rest) =
            some (ms, t :: rest, false) ∧
          (∀ j, dep ms t j = none) ∧ ms.pushed = m.pushed ∧
          drainIter del m t rest =
            (release del ms t).bind
              (fun m3 => (release del m3 t).map (fun m4 => (m4, rest)))) ∨
      (∃ ms c, scanTop del t (ndep m t) 0 (addCount m t 1) (t :: rest) =
            some (ms, c :: t :: rest, true) ∧ ms.pushed = c :: m.pushed ∧
          drainIter del m t rest = (release del ms t).map (fun m3 => (m3, c :: t :: rest)))) ∧
    (∀ (f depth : Nat) (m : Mem) (t : Nat), (∀ i, dep m t i = none) →
      dtor (f + 1) depth m t = some (enter m t depth)) ∧
    (∃ m2, dtor fuel 0 (Mem.init nd) root = some m2 ∧ m2.maxNest ≤ 1) ∧
    (∀ N : Nat, ∃ m2, dtor (2 * N + 3) 0 (Mem.init (chain N)) 0 = some m2 ∧
      m2.maxNest ≤ 1) := by
  refine ⟨?_, dtor_all_null, ?_, ?_⟩
  · intro del m t rest
    rcases drainIter_cases del m t rest with ⟨ms, h1, h2, h3, h4⟩ | ⟨ms, c, j, h1, _, _, h4, h5⟩
    · exact Or.inl ⟨ms, h1, h2, h3, h4⟩
    · exact Or.inr ⟨ms, c, h1, h4, h5⟩
  · obtain ⟨m2, hrun, hI, _⟩ := dtor_spec h fuel hf
    exact ⟨m2, hrun, hI.nest⟩
  · intro N
    obtain ⟨m2, hrun, _, _, h3, _⟩ := chain_run N (2 * N + 3) (Nat.le_refl _)
    exact ⟨m2, hrun, h3⟩

theorem drain_nesting_depth_witness :
    Consistent 6 sharedDag 0 ∧ 2 * totalLive sharedDag 6 + 3 ≤ 30 ∧
    ∃ m2, dtor 30 0 (Mem.init sharedDag) 0 = some m2 ∧ m2.maxNest ≤ 1 :=
  have hc : Consistent 6 sharedDag 0 :=
    ⟨by decide, by decide, by decide, by decide, by decide⟩
  ⟨hc, by decide, (drain_nesting_depth 6 sharedDag 0 hc 30 (by decide)).2.2.1⟩

/-- C9: on a finite node graph with consistent owner counts the destructor
returns; no node is pushed twice, and every node pushed has been popped and
destroyed when it returns, so the loop ended on an empty stack; an iteration of
the drain loop either clears a handle that was not null and pushes the child
behind it, or pops the stack; the loop stops exactly on the empty stack. -/
theorem teardown_terminates (n : Nat) (nd : Nat → MXNode) (root : Nat)
    (h : Consistent n nd root) (fuel : Nat) (hf : 2 * totalLive nd n + 3 ≤ fuel) :
    (∃ m2, dtor fuel 0 (Mem.init nd) root = some m2 ∧ m2.pushed.Nodup ∧
      (∀ c ∈ m2.pushed, c ∈ m2.destroyed)) ∧
    (∀ (del : Mem → Nat → Option Mem) (m : Mem) (t : Nat) (rest : List Nat)
      (m2 : Mem) (stack2 : List Nat), drainIter del m t rest = some (m2, stack2) →
      (∃ c j ms, dep m t j = some c ∧
        scanTop del t (ndep m t) 0 (addCount m t 1) (t :: rest) =
          some (ms, c :: t :: rest, true) ∧
        dep ms t j = none ∧ stack2 = c :: t :: rest) ∨ stack2 = rest) ∧
    (∀ (del : Mem → Nat → Option Mem) (f : Nat) (m : Mem),
      drainWith del f m [] = some m) ∧
    (∀ (del : Mem → Nat → Option Mem) (f : Nat) (m : Mem) (t : Nat) (rest : List Nat),
      drainWith del (f + 1) m (t :: rest) =
        (drainIter del m t rest).bind (fun r => drainWith del f r.1 r.2)) := by
  refine ⟨?_, ?_, ?_, ?_⟩
  · obtain ⟨m2, hrun, hI, _⟩ := dtor_spec h fuel hf
    refine ⟨m2, hrun, hI.pushed_nodup, ?_⟩
    intro c hc
    rcases hI.pushed_sub c hc with e | e
    · exact absurd e (List.not_mem_nil c)
    · exact e
  · intro del m t rest m2 stack2 hit
    rcases drainIter_cases del m t rest with ⟨ms, _, _, _, h4⟩ | ⟨ms, c, j, h1, h2, h3, _, h5⟩
    · right
      rw [h4] at hit
      cases h6 : release del ms t with
      | none => rw [h6] at hit; cases hit
      | some m3 =>
        rw [h6] at hit
        cases h7 : release del m3 t with
        | none => rw [Option.some_bind, h7] at hit; cases hit
        | some m4 =>
          rw [Option.some_bind, h7] at hit
          simp only [Option.map_some', Option.some.injEq, Prod.mk.injEq] at hit
          exact hit.2.symm
    · left
      refine ⟨c, j, ms, h2, h1, h3, ?_⟩
      rw [h5] at hit
      cases h6 : release del ms t with
      | none => rw [h6] at hit; cases hit
      | some m3 =>
        rw [h6] at hit
        simp only [Option.map_some', Option.some.injEq, Prod.mk.injEq] at hit
        exact hit.2.symm
  · intro del f m
    cases f <;> rfl
  · intro del f m t rest
    simp only [drainWith]
    cases drainIter del m t rest with
    | none => rfl
    | some r => rfl

theorem teardown_terminates_witness :
    Consistent 6 sharedDag 0 ∧ 2 * totalLive sharedDag 6 + 3 ≤ 30 ∧
    ∃ m2, dtor 30 0 (Mem.init sharedDag) 0 = some m2 ∧ m2.pushed.Nodup ∧
      (∀ c ∈ m2.pushed, c ∈ m2.destroyed) :=
  have hc : Consistent 6 sharedDag 0 :=
    ⟨by decide, by decide, by decide, by decide, by decide⟩
  ⟨hc, by decide, (teardown_terminates 6 sharedDag 0 hc 30 (by decide)).1⟩

/-! ## Printing with a call budget -/

theorem total_nil (f : Nat → Nat) : total f [] = 0 := rfl

theorem total_append (f : Nat → Nat) (l1 l2 : List Nat) :
    total f (l1 ++ l2) = total f l1 + total f l2 := by
  simp [total]

theorem total_singleton (f : Nat → Nat) (e : Nat) : total f [e] = f e := by
  simp [total]

theorem heads_append (o1 o2 : List Piece) : heads (o1 ++ o2) = heads o1 ++ heads o2 := by
  simp [heads]

theorem countText_append (s : String) (o1 o2 : List Piece) :
    countText s (o1 ++ o2) = countText s o1 + countText s o2 := by
  simp [countText]

theorem trace_of_thrown {printPart : Nat → Nat → Except String String} {m : Mem}
    {own : List Nat} {cp cn cd : Nat} {p p2 : Printer} {out : List Piece} {l : List Nat}
    (h : Trace printPart m own cp cn cd p p2 out l) (ht : p2.thrown = true)
    (cp2 cn2 cd2 : Nat) : Trace printPart m own cp2 cn2 cd2 p p2 out l :=
  ⟨h.stream, h.expanded, h.budget, h.nonneg, h.origin, h.heads_prefix, h.cause,
    fun hf => by rw [ht] at hf; exact absurd hf (by decide)⟩

theorem trace_weaken {printPart : Nat → Nat → Except String String} {m : Mem}
    {cp cn cd : Nat} {p p2 : Printer} {out : List Piece} {l : List Nat}
    (h : Trace printPart m [] cp cn cd p p2 out l) (own : List Nat) :
    Trace printPart m own cp cn cd p p2 out l := by
  refine ⟨h.stream, h.expanded, h.budget, h.nonneg, ?_, h.heads_prefix, ?_, h.complete⟩
  · intro e k s hm
    obtain ⟨h1, h2⟩ := h.origin e k s hm
    exact ⟨h1.imp (fun x => x) (fun x => absurd x (List.not_mem_nil e)), h2⟩
  · intro ht
    rcases h.cause ht with h1 | ⟨e, k, err, h1, h2⟩
    · exact Or.inl h1
    · exact Or.inr ⟨e, k, err, h1.imp (fun x => x) (fun x => absurd x (List.not_mem_nil e)), h2⟩

theorem trace_comp {printPart : Nat → Nat → Except String String} {m : Mem}
    {own : List Nat} {cp1 cn1 cd1 cp2 cn2 cd2 : Nat} {p p1 p2 : Printer}
    {out1 out2 : List Piece} {l1 l2 : List Nat}
    (h1 : Trace printPart m own cp1 cn1 cd1 p p1 out1 l1) (ht : p1.thrown = false)
    (h2 : Trace printPart m own cp2 cn2 cd2 p1 p2 out2 l2) :
    Trace printPart m own (cp1 + cp2) (cn1 + cn2) (cd1 + cd2) p p2 (out1 ++ out2)
      (l2 ++ l1) := by
  obtain ⟨ht0, hh1, hp1, hn1, hd1⟩ := h1.complete ht
  refine ⟨?_, ?_, ?_, fun h => h2.nonneg (h1.nonneg h), ?_, ?_, ?_, ?_⟩
  · rw [h2.stream, h1.stream, List.append_assoc]
  · rw [h2.expanded, h1.expanded, List.append_assoc]
  · have := h1.budget
    have := h2.budget
    simp only [List.length_append]
    push_cast
    omega
  · intro e k s hm
    rcases List.mem_append.1 hm with hm | hm
    · obtain ⟨a, b⟩ := h1.origin e k s hm
      exact ⟨a.imp (fun x => List.mem_append_right _ x) (fun x => x), b⟩
    · obtain ⟨a, b⟩ := h2.origin e k s hm
      exact ⟨a.imp (fun x => List.mem_append_left _ x) (fun x => x), b⟩
  · rw [heads_append, List.reverse_append, hh1]
    exact (List.prefix_append_right_inj _).2 h2.heads_prefix
  · intro h
    rcases h2.cause h with h3 | ⟨e, k, err, h3, h4⟩
    · rw [ht] at h3; exact absurd h3 (by decide)
    · exact Or.inr ⟨e, k, err, h3.imp (fun x => List.mem_append_left _ x) (fun x => x), h4⟩
  · intro h
    obtain ⟨_, hh2, hp2, hn2, hd2⟩ := h2.complete h
    refine ⟨ht0, ?_, ?_, ?_, ?_⟩
    · rw [heads_append, List.reverse_append, hh1, hh2]
    · rw [List.countP_append, total_append]; omega
    · rw [countText_append, total_append]; omega
    · rw [countText_append, total_append, List.length_append]; omega

theorem trace_refl (printPart : Nat → Nat → Except String String) (m : Mem)
    (own : List Nat) (p : Printer) : Trace printPart m own 0 0 0 p p [] [] := by
  refine ⟨by simp, by simp, by simp, fun h => h, ?_, ?_, fun h => Or.inl h, ?_⟩
  · intro e k s hm; exact absurd hm (List.not_mem_nil _)
  · simp [heads]
  · intro h; simp [heads, countText, total, h]

theorem trace_write_null (printPart : Nat → Nat → Except String String) (m : Mem)
    (own : List Nat) (p : Printer) :
    Trace printPart m own 0 1 0 p (p.write "MX()") [Piece.text "MX()"] [] := by
  refine ⟨rfl, rfl, by simp [Printer.write], fun h => h, ?_, ?_, fun h => Or.inl h, ?_⟩
  · intro e k s hm; simp at hm
  · simp [heads, Piece.head]
  · intro h
    refine ⟨h, by simp [heads, Piece.head], by simp [Piece.isPart, total], ?_, ?_⟩
    · simp [countText, total]
    · simp [countText, total]

theorem trace_write_dots (printPart : Nat → Nat → Except String String) (m : Mem)
    (own : List Nat) (p : Printer) :
    Trace printPart m own 0 0 1 p (p.write "...") [Piece.text "..."] [] := by
  refine ⟨rfl, rfl, by simp [Printer.write], fun h => h, ?_, ?_, fun h => Or.inl h, ?_⟩
  · intro e k s hm; simp at hm
  · simp [heads, Piece.head]
  · intro h
    refine ⟨h, by simp [heads, Piece.head], by simp [Piece.isPart, total], ?_, ?_⟩
    · simp [countText, total]
    · simp [countText, total]

theorem trace_part_ok (printPart : Nat → Nat → Except String String) (m : Mem)
    (own : List Nat) (p : Printer) (e k : Nat) (s : String) (he : e ∈ own)
    (hs : printPart e (k + 1) = .ok s) :
    Trace printPart m own 1 0 0 p (p.part e (k + 1) (.ok s)) [Piece.part e (k + 1) s] [] := by
  refine ⟨rfl, rfl, by simp [Printer.part], fun h => h, ?_, ?_, fun h => Or.inl h, ?_⟩
  · intro e2 k2 s2 hm
    simp only [List.mem_singleton, Piece.part.injEq] at hm
    obtain ⟨rfl, rfl, rfl⟩ := hm
    exact ⟨Or.inr he, hs⟩
  · simp [heads, Piece.head]
  · intro h
    refine ⟨h, by simp [heads, Piece.head], by simp [Piece.isPart, total], ?_, ?_⟩
    · simp [countText, total]
    · simp [countText, total]

theorem trace_part_error (printPart : Nat → Nat → Except String String) (m : Mem)
    (own : List Nat) (p : Printer) (e k : Nat) (err : String) (he : e ∈ own)
    (hs : printPart e k = .error err) (cp cn cd : Nat) :
    Trace printPart m own cp cn cd p (p.part e k (.error err)) [] [] := by
  refine ⟨by simp [Printer.part], rfl, by simp [Printer.part], fun h => h, ?_, ?_,
    fun _ => Or.inr ⟨e, k, err, Or.inr he, hs⟩, ?_⟩
  · intro e2 k2 s2 hm; exact absurd hm (List.not_mem_nil _)
  · simp [heads]
  · intro h; simp [Printer.part] at h

theorem countP_drop_isNone (l : List (Option Nat)) (i : Nat) (h : i < l.length) :
    (l.drop i).countP Option.isNone =
      (if l.getD i none = none then 1 else 0) + (l.drop (i + 1)).countP Option.isNone := by
  rw [List.drop_eq_getElem_cons h, List.countP_cons, List.getD_eq_getElem l none h]
  cases l[i] <;> simp [Nat.add_comm]

theorem countP_drop_isSome (l : List (Option Nat)) (i : Nat) (h : i < l.length) :
    (l.drop i).countP Option.isSome =
      (if l.getD i none = none then 0 else 1) + (l.drop (i + 1)).countP Option.isSome := by
  rw [List.drop_eq_getElem_cons h, List.countP_cons, List.getD_eq_getElem l none h]
  cases l[i] <;> simp [Nat.add_comm]

theorem trace_credits {printPart : Nat → Nat → Except String String} {m : Mem}
    {own : List Nat} {cp cn cd cp2 cn2 cd2 : Nat} {p p2 : Printer} {out : List Piece}
    {l : List Nat} (h : Trace printPart m own cp cn cd p p2 out l)
    (e1 : cp = cp2) (e2 : cn = cn2) (e3 : cd = cd2) :
    Trace printPart m own cp2 cn2 cd2 p p2 out l := by
  subst e1 e2 e3; exact h

/-- The loop over the dependencies of an expanded node, from index `i` on: it
returns, and it deals with the handles from `i` on and with the parts after
them. -/
theorem printDeps_trace (sub : Printer → Nat → Option Printer)
    (printPart : Nat → Nat → Except String String) (m : Mem) (self : Nat) (fuel : Nat)
    (hsub : ∀ (q : Printer) (c : Nat), q.remaining_calls ≤ fuel →
      ∃ q2 out l, sub q c = some q2 ∧ Trace printPart m [] 0 0 1 q q2 out l) :
    ∀ (k i : Nat) (p : Printer), i + k = ndep m self → p.remaining_calls ≤ fuel →
      ∃ p2 out l, printDeps sub printPart m self k i p = some p2 ∧
        Trace printPart m [self] k (((m.node self).dep_.drop i).countP Option.isNone)
          (((m.node self).dep_.drop i).countP Option.isSome) p p2 out l := by
  intro k
  induction k with
  | zero =>
    intro i p hi _
    refine ⟨p, [], [], rfl, trace_credits (trace_refl printPart m [self] p) rfl ?_ ?_⟩
    · rw [List.drop_of_length_le (by unfold ndep at hi; omega)]; rfl
    · rw [List.drop_of_length_le (by unfold ndep at hi; omega)]; rfl
  | succ k ih =>
    intro i p hi hp
    have hlt : i < (m.node self).dep_.length := by unfold ndep at hi; omega
    have hstep : ∃ p1 out1 l1, (match dep m self i with
        | none => some (p.write "MX()")
        | some c => sub p c) = some p1 ∧
        Trace printPart m [self] 0 (if dep m self i = none then 1 else 0)
          (if dep m self i = none then 0 else 1) p p1 out1 l1 := by
      cases dep m self i with
      | none => exact ⟨p.write "MX()", _, _, rfl, trace_write_null printPart m [self] p⟩
      | some c =>
        obtain ⟨q2, out, l, e, ht⟩ := hsub p c hp
        exact ⟨q2, out, l, e, trace_weaken ht [self]⟩
    obtain ⟨p1, out1, l1, h1, hs1⟩ := hstep
    simp only [printDeps, h1]
    by_cases ht : p1.thrown = true
    · simp only [ht, if_true]
      exact ⟨p1, out1, l1, rfl, trace_of_thrown hs1 ht _ _ _⟩
    · simp only [ht, if_false]
      have htf : p1.thrown = false := by simpa using ht
      cases hr : printPart self (i + 1) with
      | error err =>
        have hs2 := trace_comp hs1 htf
          (trace_part_error printPart m [self] p1 self (i + 1) err (List.mem_singleton.2 rfl)
            hr 0 0 0)
        have hthrown : (p1.part self (i + 1) (.error err)).thrown = true := rfl
        simp only [hthrown, if_true]
        exact ⟨_, _, _, rfl, trace_of_thrown hs2 hthrown _ _ _⟩
      | ok s =>
        have hs2 := trace_comp hs1 htf
          (trace_part_ok printPart m [self] p1 self i s (List.mem_singleton.2 rfl) hr)
        have hthrown : (p1.part self (i + 1) (.ok s)).thrown = false := htf
        simp only [hthrown, Bool.false_eq_true, if_false]
        have hle : (p1.part self (i + 1) (.ok s)).remaining_calls ≤ fuel := by
          have := hs2.budget
          omega
        obtain ⟨p3, out3, l3, h3, hs3⟩ := ih (i + 1) (p1.part self (i + 1) (.ok s))
          (by omega) hle
        refine ⟨p3, _, _, h3, trace_credits (trace_comp hs2 hthrown hs3) (by omega) ?_ ?_⟩
        · rw [countP_drop_isNone _ i hlt]; rfl
        · rw [countP_drop_isSome _ i hlt]; rfl

theorem print_of_nonpos (printPart : Nat → Nat → Except String String) (m : Mem)
    (fuel : Nat) (p : Printer) (self : Nat) (h : p.remaining_calls ≤ 0) :
    MXNode.print printPart m fuel p self = some (p.write "...") := by
  have h0 : ¬ 0 < p.remaining_calls := by omega
  cases fuel <;> simp only [MXNode.print, h0, if_false]

/-- A print with enough fuel returns; on a positive budget the node itself is the
first node expanded and its part 0 the first piece written. -/
theorem print_trace (printPart : Nat → Nat → Except String String) (m : Mem) :
    ∀ (fuel : Nat) (p : Printer) (self : Nat), p.remaining_calls ≤ fuel →
      ∃ p2 out l, MXNode.print printPart m fuel p self = some p2 ∧
        Trace printPart m [] 0 0 1 p p2 out l ∧
        (0 < p.remaining_calls → (∃ l2, l = l2 ++ [self]) ∧
          ∀ s, printPart self 0 = .ok s → out.head? = some (Piece.part self 0 s)) := by
  intro fuel
  induction fuel with
  | zero =>
    intro p self hp
    have h0 : p.remaining_calls ≤ 0 := by simpa using hp
    exact ⟨p.write "...", _, _, print_of_nonpos printPart m 0 p self h0,
      trace_write_dots printPart m [] p, fun h => absurd h (by omega)⟩
  | succ fuel ih =>
    intro p self hp
    by_cases h0 : 0 < p.remaining_calls
    · simp only [MXNode.print, h0, if_true]
      cases hr : printPart self 0 with
      | error err =>
        have hthrown : (Printer.part
            ⟨p.stream, p.remaining_calls - 1, p.thrown, self :: p.expanded⟩ self 0
            (.error err)).thrown = true := rfl
        simp only [hthrown, if_true]
        refine ⟨_, [], [self], rfl, ⟨by simp [Printer.part], rfl, by simp [Printer.part],
          fun _ => by simp only [Printer.part]; omega, ?_, by simp [heads],
          fun _ => Or.inr ⟨self, 0, err, Or.inl (List.mem_singleton.2 rfl), hr⟩,
          fun h => by simp [Printer.part] at h⟩,
          fun _ => ⟨⟨[], rfl⟩, fun s hs => by simp at hs⟩⟩
        intro e k s hm; exact absurd hm (List.not_mem_nil _)
      | ok s =>
        have hfirst : ∀ e k s2, Piece.part e k s2 = Piece.part self 0 s →
            (e ∈ [self]) ∧ printPart e k = .ok s2 := by
          intro e k s2 he
          simp only [Piece.part.injEq] at he
          obtain ⟨rfl, rfl, rfl⟩ := he
          exact ⟨List.mem_singleton.2 rfl, hr⟩
        by_cases ht : p.thrown = true
        · have hthrown : (Printer.part
              ⟨p.stream, p.remaining_calls - 1, p.thrown, self :: p.expanded⟩ self 0
              (.ok s)).thrown = true := ht
          simp only [hthrown, if_true]
          refine ⟨_, [Piece.part self 0 s], [self], rfl, ⟨rfl, rfl, by simp [Printer.part],
            fun _ => by simp only [Printer.part]; omega, ?_, by simp [heads, Piece.head],
            fun _ => Or.inl ht, fun h => by rw [hthrown] at h; exact absurd h (by decide)⟩,
            fun _ => ⟨⟨[], rfl⟩, fun s2 hs => by simp at hs; subst hs; rfl⟩⟩
          intro e k s2 hm
          exact ⟨Or.inl (hfirst e k s2 (List.mem_singleton.1 hm)).1,
            (hfirst e k s2 (List.mem_singleton.1 hm)).2⟩
        · have htf : p.thrown = false := by simpa using ht
          have hthrown : (Printer.part
              ⟨p.stream, p.remaining_calls - 1, p.thrown, self :: p.expanded⟩ self 0
              (.ok s)).thrown = false := htf
          simp only [hthrown, Bool.false_eq_true, if_false]
          obtain ⟨p2, out2, l2, h2, hs2⟩ := printDeps_trace (MXNode.print printPart m fuel)
            printPart m self fuel (fun q c hq => by
              obtain ⟨q2, out, l, e, hq2, _⟩ := ih q c hq
              exact ⟨q2, out, l, e, hq2⟩) (ndep m self) 0
            (Printer.part ⟨p.stream, p.remaining_calls - 1, p.thrown, self :: p.expanded⟩
              self 0 (.ok s)) (by omega) (by
                simp only [Printer.part]
                push_cast at hp
                omega)
          refine ⟨p2, Piece.part self 0 s :: out2, l2 ++ [self], h2, ⟨?_, ?_, ?_, ?_, ?_, ?_,
            ?_, ?_⟩, fun _ => ⟨⟨l2, rfl⟩, fun s2 hs => by simp at hs; subst hs; rfl⟩⟩
          · rw [hs2.stream]; simp [Printer.part]
          · rw [hs2.expanded]; simp [Printer.part]
          · have := hs2.budget
            simp only [Printer.part] at this
            simp only [List.length_append, List.length_singleton]
            push_cast
            omega
          · intro _
            exact hs2.nonneg (by simp only [Printer.part]; omega)
          · intro e k s2 hm
            rcases List.mem_cons.1 hm with hm | hm
            · exact ⟨Or.inl (List.mem_append_right _ (hfirst e k s2 hm).1), (hfirst e k s2 hm).2⟩
            · obtain ⟨a, b⟩ := hs2.origin e k s2 hm
              exact ⟨Or.inl (a.elim (fun x => List.mem_append_left _ x)
                (fun x => List.mem_append_right _ x)), b⟩
          · have := hs2.heads_prefix
            simp only [heads, List.filterMap_cons, Piece.head, List.reverse_append,
              List.reverse_singleton, List.singleton_append]
            exact (List.prefix_cons_inj self).2 this
          · intro h
            rcases hs2.cause h with h3 | ⟨e, k, err, h3, h4⟩
            · rw [hthrown] at h3; exact absurd h3 (by decide)
            · exact Or.inr ⟨e, k, err, Or.inl (h3.elim (fun x => List.mem_append_left _ x)
                (fun x => List.mem_append_right _ x)), h4⟩
          · intro h
            obtain ⟨_, hh, hpc, hnc, hdc⟩ := hs2.complete h
            simp only [List.drop_zero] at hnc hdc
            refine ⟨htf, ?_, ?_, ?_, ?_⟩
            · simp only [heads, List.filterMap_cons, Piece.head, List.reverse_append,
                List.reverse_singleton, List.singleton_append]
              exact congrArg _ hh
            · rw [List.countP_cons, hpc, total_append, total_singleton]
              simp only [Piece.isPart, if_true]
              omega
            · rw [total_append, total_singleton]
              have : countText "MX()" (Piece.part self 0 s :: out2) = countText "MX()" out2 := by
                simp [countText]
              have e : nullIn m.node self = List.countP Option.isNone (m.node self).dep_ := rfl
              rw [this, hnc, e]
              omega
            · rw [total_append, total_singleton]
              have : countText "..." (Piece.part self 0 s :: out2) = countText "..." out2 := by
                simp [countText]
              have e : liveIn m.node self = List.countP Option.isSome (m.node self).dep_ := rfl
              rw [this, List.length_append, List.length_singleton, e]
              omega
    · have h1 : p.remaining_calls ≤ 0 := by omega
      exact ⟨p.write "...", _, _, print_of_nonpos printPart m _ p self h1,
        trace_write_dots printPart m [] p, fun h => absurd h h0⟩

/-- The loop over the dependencies of a node all of whose handles are null and
whose `printPart` does not throw: `"MX()"` and the part that follows, for every
handle, and nothing else changes. -/
theorem printDeps_all_null (sub : Printer → Nat → Option Printer)
    (printPart : Nat → Nat → Except String String) (m : Mem) (self : Nat) (f : Nat → String)
    (hnull : ∀ j, j < ndep m self → dep m self j = none)
    (hf : ∀ j, j ≤ ndep m self → printPart self j = .ok (f j)) :
    ∀ (k i : Nat) (p : Printer), i + k = ndep m self → p.thrown = false →
      printDeps sub printPart m self k i p =
        some ⟨p.stream ++ (List.range' i k).flatMap
          (fun j => [Piece.text "MX()", Piece.part self (j + 1) (f (j + 1))]),
          p.remaining_calls, false, p.expanded⟩ := by
  intro k
  induction k with
  | zero =>
    intro i p _ ht
    obtain ⟨s, r, t, x⟩ := p
    simp only at ht
    subst ht
    simp [printDeps]
  | succ k ih =>
    intro i p hi ht
    have hd := hnull i (by omega)
    have hp := hf (i + 1) (by omega)
    obtain ⟨s, r, t, x⟩ := p
    simp only at ht
    subst ht
    simp only [printDeps, hd, hp, Printer.write, Printer.part, Bool.false_eq_true, if_false]
    rw [ih (i + 1) _ (by omega) rfl]
    simp [List.range'_succ]

/-- C11: `print` called with a budget `n ≤ 0` writes exactly `"..."` and leaves
the budget as it is.  Called with a budget `n > 0` it returns; the node itself
is expanded first and its part 0, if `printPart` writes one, is the first piece
of the output; the budget has dropped by exactly one for every node expanded
and is not negative, so at most `n` nodes are expanded; every part in the
output is what `printPart` writes for an expanded node, so at most `n` nodes
have parts printed; an exception comes from a `printPart` of an expanded node;
and without an exception the parts 0 in the output are those of the expanded
nodes in the order of expansion, every expanded node has all its parts
printed, `"MX()"` is written once for every null handle of an expanded node,
and every non-null handle of an expanded node led to an expansion or to one
`"..."`.  For a node all of whose handles are null the output is part 0 and
then `"MX()"` and the next part for every handle, at the cost of one unit of
budget. -/
theorem print_call_budget (printPart : Nat → Nat → Except String String) (m : Mem)
    (p : Printer) (self fuel : Nat) (hf : p.remaining_calls ≤ fuel) :
    (p.remaining_calls ≤ 0 →
      MXNode.print printPart m fuel p self =
        some ⟨p.stream ++ [Piece.text "..."], p.remaining_calls, p.thrown, p.expanded⟩) ∧
    (0 < p.remaining_calls →
      ∃ p2 out l, MXNode.print printPart m fuel p self = some p2 ∧
        p2.stream = p.stream ++ out ∧
        p2.expanded = l ++ self :: p.expanded ∧
        p2.remaining_calls = p.remaining_calls - (l.length + 1) ∧
        0 ≤ p2.remaining_calls ∧ ((l.length + 1 : Nat) : Int) ≤ p.remaining_calls ∧
        (∀ s, printPart self 0 = .ok s → out.head? = some (Piece.part self 0 s)) ∧
        (∀ e k s, Piece.part e k s ∈ out → e ∈ l ++ [self] ∧ printPart e k = .ok s) ∧
        heads out <+: (l ++ [self]).reverse ∧
        (p2.thrown = true →
          p.thrown = true ∨ ∃ e k err, e ∈ l ++ [self] ∧ printPart e k = .error err) ∧
        (p2.thrown = false →
          heads out = (l ++ [self]).reverse ∧
          out.countP Piece.isPart = total (fun e => ndep m e + 1) (l ++ [self]) ∧
          countText "MX()" out = total (nullIn m.node) (l ++ [self]) ∧
          countText "..." out + (l.length + 1) = 1 + total (liveIn m.node) (l ++ [self]))) ∧
    (∀ f : Nat → String, 0 < p.remaining_calls → p.thrown = false →
      (∀ j, j < ndep m self → dep m self j = none) →
      (∀ j, j ≤ ndep m self → printPart self j = .ok (f j)) →
      MXNode.print printPart m fuel p self =
        some ⟨p.stream ++ Piece.part self 0 (f 0) :: (List.range (ndep m self)).flatMap
            (fun j => [Piece.text "MX()", Piece.part self (j + 1) (f (j + 1))]),
          p.remaining_calls - 1, false, self :: p.expanded⟩) := by
  refine ⟨?_, ?_, ?_⟩
  · intro h
    exact print_of_nonpos printPart m fuel p self h
  · intro h
    obtain ⟨p2, out, l, hrun, ht, hx⟩ := print_trace printPart m fuel p self hf
    obtain ⟨⟨l2, hl⟩, hhead⟩ := hx h
    subst hl
    have hb := ht.budget
    have hn := ht.nonneg (by omega)
    simp only [List.length_append, List.length_singleton] at hb
    push_cast at hb
    have hmem : ∀ e, (e ∈ l2 ++ [self] ∨ e ∈ ([] : List Nat)) → e ∈ l2 ++ [self] :=
      fun e he => he.elim (fun x => x) (fun x => absurd x (List.not_mem_nil e))
    refine ⟨p2, out, l2, hrun, ht.stream, ?_, by omega, hn, by push_cast; omega, hhead, ?_,
      ht.heads_prefix, ?_, ?_⟩
    · rw [ht.expanded, List.append_assoc]; rfl
    · intro e k s hm
      exact ⟨hmem e (ht.origin e k s hm).1, (ht.origin e k s hm).2⟩
    · intro h2
      rcases ht.cause h2 with h3 | ⟨e, k, err, h3, h4⟩
      · exact Or.inl h3
      · exact Or.inr ⟨e, k, err, hmem e h3, h4⟩
    · intro h2
      obtain ⟨_, hh, hpc, hnc, hdc⟩ := ht.complete h2
      simp only [List.length_append, List.length_singleton] at hdc
      exact ⟨hh, by omega, by omega, by omega⟩
  · intro f h0 ht hnull hparts
    cases fuel with
    | zero => simp only [Nat.cast_zero] at hf; omega
    | succ fuel =>
      have h1 : (Printer.part ⟨p.stream, p.remaining_calls - 1, p.thrown, self :: p.expanded⟩
          self 0 (.ok (f 0))).thrown = false := ht
      simp only [MXNode.print, h0, if_true, hparts 0 (Nat.zero_le _), h1, Bool.false_eq_true,
        if_false]
      rw [printDeps_all_null _ printPart m self f hnull hparts (ndep m self) 0 _ (by omega) h1,
        List.range_eq_range']
      simp [Printer.part]

theorem print_call_budget_witness :
    (Printer.mk [] 2 false []).remaining_calls ≤ ((2 : Nat) : Int) ∧
    ∃ p2 out l, MXNode.print bracketParts (Mem.init sharedDag) 2 (Printer.mk [] 2 false []) 0 =
        some p2 ∧
      p2.stream = (Printer.mk [] 2 false []).stream ++ out ∧
      p2.expanded = l ++ 0 :: (Printer.mk [] 2 false []).expanded ∧
      p2.remaining_calls = (Printer.mk [] 2 false []).remaining_calls - (l.length + 1) ∧
      0 ≤ p2.remaining_calls ∧
      ((l.length + 1 : Nat) : Int) ≤ (Printer.mk [] 2 false []).remaining_calls ∧
      (∀ s, bracketParts 0 0 = .ok s → out.head? = some (Piece.part 0 0 s)) ∧
      (∀ e k s, Piece.part e k s ∈ out → e ∈ l ++ [0] ∧ bracketParts e k = .ok s) ∧
      heads out <+: (l ++ [0]).reverse ∧
      (p2.thrown = true →
        (Printer.mk [] 2 false []).thrown = true ∨
          ∃ e k err, e ∈ l ++ [0] ∧ bracketParts e k = .error err) ∧
      (p2.thrown = false →
        heads out = (l ++ [0]).reverse ∧
        out.countP Piece.isPart =
          total (fun e => ndep (Mem.init sharedDag) e + 1) (l ++ [0]) ∧
        countText "MX()" out = total (nullIn (Mem.init sharedDag).node) (l ++ [0]) ∧
        countText "..." out + (l.length + 1) =
          1 + total (liveIn (Mem.init sharedDag).node) (l ++ [0])) :=
  ⟨by decide,
    (print_call_budget bracketParts (Mem.init sharedDag) (Printer.mk [] 2 false []) 0 2
      (by decide)).2.1 (by decide)⟩

/-- Prints, evaluated.  With budget 2 the root of `sharedDag` and its first
dependency are expanded, every other node is written as `"..."`; with budget 0
only `"..."` is written; a null dependency is written as `"MX()"` and takes
nothing from the budget; the `printPart` of the base class throws at part 0,
after the budget was taken. -/
theorem print_runs :
    (MXNode.print bracketParts (Mem.init sharedDag) 2 ⟨[], 2, false, []⟩ 0).map
        (fun p => (p.chars, p.remaining_calls, p.expanded)) =
      some (["(", "(", "...", ",", ",", "...", ",", "...", ","], 0, [1, 0]) ∧
    (MXNode.print bracketParts (Mem.init sharedDag) 2 ⟨[], 2, false, []⟩ 0).map
        (fun p => p.stream) =
      some [Piece.part 0 0 "(", Piece.part 1 0 "(", Piece.text "...", Piece.part 1 1 ",",
        Piece.part 0 1 ",", Piece.text "...", Piece.part 0 2 ",", Piece.text "...",
        Piece.part 0 3 ","] ∧
    (MXNode.print bracketParts (Mem.init sharedDag) 0 ⟨[], 0, false, []⟩ 0).map
        (fun p => (p.chars, p.remaining_calls, p.expanded)) =
      some (["..."], 0, []) ∧
    (MXNode.print bracketParts (Mem.init withNull) 5 ⟨[], 5, false, []⟩ 0).map
        (fun p => (p.chars, p.remaining_calls, p.expanded)) =
      some (["(", "MX()", ",", "(", ","], 3, [1, 0]) ∧
    (MXNode.print bracketParts (Mem.init nullPair) 1 ⟨[], 1, false, []⟩ 0).map
        (fun p => (p.chars, p.remaining_calls, p.expanded)) =
      some (["(", "MX()", ",", "MX()", ","], 0, [0]) ∧
    (MXNode.print (MXNode.printPart (Mem.init sharedDag)) (Mem.init sharedDag) 5
        ⟨[], 5, false, []⟩ 0).map
        (fun p => (p.chars, p.remaining_calls, p.thrown, p.expanded)) =
      some ([], 4, true, [0]) := by
  refine ⟨?_, ?_, ?_, ?_, ?_, ?_⟩ <;> rfl

end CasADi
